import Mathlib

/-!
Verification of the glob_experiment pattern engine.

This file gives a shallow embedding, in Lean 4, of the three core subsystems of
the repository (src/parser.rs, src/compiler.rs, src/matcher.rs), and proves or
refutes the frozen specification claims about them.

Modelling conventions:
* Bytes are Nat values (< 256 in practice); byte strings are List Nat.
* Rust machine integers are Nat; overflow is modelled with an explicit mod
  where it could matter (only the u32 counter increments in the matcher).
* Fallible or panicking Rust code is modelled with Option / dedicated outcome
  types; a todo or index-out-of-bounds panic maps to a dedicated panic value.
* The parser loops and the matcher VM loop are not structurally recursive in
  the Rust source, so they are embedded with an explicit fuel parameter; fuel
  exhaustion is a distinct outcome, never conflated with a result.
* Rust std behaviour that the sources rely on (UTF-8 decoding, unix
  Path::components, u32::from_str) is modelled directly from its documented
  semantics.
-/

set_option autoImplicit false
set_option maxHeartbeats 1000000

/-! ### Bytes and UTF-8 (std behaviour used by the sources) -/

/-- A UTF-8 continuation byte (0x80 ..= 0xBF). -/
def isCont (b : Nat) : Bool := 128 ≤ b ∧ b ≤ 191

/-- Decode the first UTF-8 scalar of a byte string, returning the scalar and
its encoded length. Mirrors the validation ranges of the Rust std UTF-8
decoder (rejecting overlong forms, surrogates and values above 0x10FFFF). -/
def utf8DecodeFirst : List Nat → Option (Char × Nat)
  | [] => none
  | b1 :: rest =>
    if b1 < 128 then some (Char.ofNat b1, 1)
    else if 194 ≤ b1 ∧ b1 ≤ 223 then
      match rest with
      | b2 :: _ =>
        if isCont b2 then some (Char.ofNat ((b1 - 192) * 64 + (b2 - 128)), 2) else none
      | [] => none
    else if b1 = 224 then
      match rest with
      | b2 :: b3 :: _ =>
        if (160 ≤ b2 ∧ b2 ≤ 191) ∧ isCont b3 then
          some (Char.ofNat ((b1 - 224) * 4096 + (b2 - 128) * 64 + (b3 - 128)), 3)
        else none
      | _ => none
    else if (225 ≤ b1 ∧ b1 ≤ 236) ∨ b1 = 238 ∨ b1 = 239 then
      match rest with
      | b2 :: b3 :: _ =>
        if isCont b2 ∧ isCont b3 then
          some (Char.ofNat ((b1 - 224) * 4096 + (b2 - 128) * 64 + (b3 - 128)), 3)
        else none
      | _ => none
    else if b1 = 237 then
      match rest with
      | b2 :: b3 :: _ =>
        if (128 ≤ b2 ∧ b2 ≤ 159) ∧ isCont b3 then
          some (Char.ofNat ((b1 - 224) * 4096 + (b2 - 128) * 64 + (b3 - 128)), 3)
        else none
      | _ => none
    else if b1 = 240 then
      match rest with
      | b2 :: b3 :: b4 :: _ =>
        if (144 ≤ b2 ∧ b2 ≤ 191) ∧ isCont b3 ∧ isCont b4 then
          some (Char.ofNat
            ((b1 - 240) * 262144 + (b2 - 128) * 4096 + (b3 - 128) * 64 + (b4 - 128)), 4)
        else none
      | _ => none
    else if 241 ≤ b1 ∧ b1 ≤ 243 then
      match rest with
      | b2 :: b3 :: b4 :: _ =>
        if isCont b2 ∧ isCont b3 ∧ isCont b4 then
          some (Char.ofNat
            ((b1 - 240) * 262144 + (b2 - 128) * 4096 + (b3 - 128) * 64 + (b4 - 128)), 4)
        else none
      | _ => none
    else if b1 = 244 then
      match rest with
      | b2 :: b3 :: b4 :: _ =>
        if (128 ≤ b2 ∧ b2 ≤ 143) ∧ isCont b3 ∧ isCont b4 then
          some (Char.ofNat
            ((b1 - 240) * 262144 + (b2 - 128) * 4096 + (b3 - 128) * 64 + (b4 - 128)), 4)
        else none
      | _ => none
    else none

/-- Source: parser.rs get_utf8_char. First valid UTF-8 scalar plus the rest of
the byte string; none when the string does not start with a valid scalar. -/
def getUtf8Char (s : List Nat) : Option (Char × List Nat) :=
  match utf8DecodeFirst s with
  | some (c, n) => some (c, s.drop n)
  | none => none

/-- Source: matcher.rs length_of_first_char. Byte length of the first UTF-8
scalar, or 1 for an invalid leading byte (lenient decoding); none only on the
empty string. -/
def lengthOfFirstChar (s : List Nat) : Option Nat :=
  match s with
  | [] => none
  | _ =>
    some (match utf8DecodeFirst s with
          | some (_, n) => n
          | none => 1)

/-- Whole-string UTF-8 validity (std str::from_utf8), with fuel (one unit per
decoded scalar; the call sites pass the string length, which suffices since
every scalar occupies at least one byte). -/
def utf8ValidF : Nat → List Nat → Bool
  | _, [] => true
  | 0, _ :: _ => false
  | f + 1, s =>
    match utf8DecodeFirst s with
    | some (_, n) => utf8ValidF f (s.drop n)
    | none => false

def utf8Valid (s : List Nat) : Bool := utf8ValidF s.length s

/-- Source: std path is_separator on unix. -/
def isSep (c : Char) : Bool := c = '/'

/-- Source: std u32::from_str — an optional leading plus sign, one or more
ASCII digits, value within u32 range. -/
def parseU32 (s : List Nat) : Option Nat :=
  let digits := match s with
    | 43 :: rest => rest
    | _ => s
  if digits = [] then none
  else if digits.all (fun b => 48 ≤ b ∧ b ≤ 57) then
    let v := digits.foldl (fun acc b => acc * 10 + (b - 48)) 0
    if v < 4294967296 then some v else none
  else none

/-! ### AST (parser.rs data model) -/

/-- Source: parser.rs CharacterClass. -/
inductive CharacterClass where
  | single (c : Char)
  | range (lo hi : Char)
deriving DecidableEq

/-- Source: parser.rs AstNode. Rust AstNode::Prefix holds the prefix text and
AstNode::Repeat is a keyword in Lean, hence the constructor names pfxNode and
repeatN. Pattern (a struct wrapping Vec of AstNode) is the plain node list. -/
inductive AstNode where
  | separator
  | pfxNode (s : List Nat)
  | rootDir
  | curDir
  | parentDir
  | recurse
  | literalString (bytes : List Nat)
  | anyCharacter
  | wildcard
  | characters (classes : List CharacterClass)
  | alternatives (choices : List (List AstNode))
  | repeatN (min max : Nat) (pattern : List AstNode)

abbrev Pattern := List AstNode

/-! ### Parser (parser.rs)

The recognisers that do not recurse into parse_nodes are plain functions from
the input bytes and the output node list to an optional pair of the remaining
bytes and the extended output; none is the Err case of the source (which
restores the output buffer — the models never touch it before succeeding).
parse_nodes and the choice loop of node_alternatives are mutually recursive
through next_node, so they are embedded as a single fuel-indexed step
function, with the recognisers that need recursion (node_alternatives,
node_repeat) inlined at their position in the next_node chain. -/

/-- Source: parser.rs node_separator. -/
def nodeSeparator (s : List Nat) (out : List AstNode) : Option (List Nat × List AstNode) :=
  match getUtf8Char s with
  | some (ch, rest) => if isSep ch then some (rest, out ++ [.separator]) else none
  | none => none

/-- Source: parser.rs node_any_character. -/
def nodeAnyCharacter (s : List Nat) (out : List AstNode) :
    Option (List Nat × List AstNode) :=
  if s.head? = some 63 then some (s.drop 1, out ++ [.anyCharacter]) else none

/-- Source: parser.rs node_recurse. -/
def nodeRecurse (s : List Nat) (out : List AstNode) : Option (List Nat × List AstNode) :=
  if s.take 2 = [42, 42] then some (s.drop 2, out ++ [.recurse]) else none

/-- Source: parser.rs node_wildcard. -/
def nodeWildcard (s : List Nat) (out : List AstNode) : Option (List Nat × List AstNode) :=
  if s.head? = some 42 then some (s.drop 1, out ++ [.wildcard]) else none

/-- Source: parser.rs node_character_class, one item: after the start char, a
dash makes an inclusive range (failing if no valid end char follows),
otherwise the item is the single start char. -/
def charClassItem (startChar : Char) (s1 : List Nat) :
    Option (CharacterClass × List Nat) :=
  if s1.head? = some 45 then
    match getUtf8Char (s1.drop 1) with
    | none => none
    | some (endChar, s2) => some (.range startChar endChar, s2)
  else some (.single startChar, s1)

/-- Source: parser.rs node_character_class inner loop, with fuel (one unit per
class item; the call site passes the string length, which suffices since every
item consumes at least one byte). After each item: a closing bracket ends the
class, any other byte starts another item, end of input fails the whole
construct. -/
def charClassLoop : Nat → List Nat → List CharacterClass →
    Option (List Nat × List CharacterClass)
  | 0, _, _ => none
  | f + 1, s, classes =>
    match getUtf8Char s with
    | none => none
    | some (startChar, s1) =>
      match charClassItem startChar s1 with
      | none => none
      | some (item, s2) =>
        let classes1 := classes ++ [item]
        match s2.head? with
        | some b =>
          if b = 93 then some (s2.drop 1, classes1)
          else charClassLoop f s2 classes1
        | none => none

/-- Source: parser.rs node_character_class entry. -/
def nodeCharacterClass (s : List Nat) (out : List AstNode) :
    Option (List Nat × List AstNode) :=
  if s.head? = some 91 then
    match charClassLoop s.length (s.drop 1) [] with
    | some (rest, classes) => some (rest, out ++ [.characters classes])
    | none => none
  else none

/-- Source: parser.rs starts_at_path_component_boundary. -/
def startsAtBoundary (s : List Nat) : Bool :=
  s.isEmpty || (match getUtf8Char s with
                | some (ch, _) => isSep ch
                | none => false)

/-- Source: parser.rs node_cur_or_parent_dir. The recogniser looks behind at
the last node produced and ahead for a component boundary. -/
def nodeCurOrParentDir (s : List Nat) (out : List AstNode) :
    Option (List Nat × List AstNode) :=
  match out.getLast? with
  | none | some .rootDir | some .separator =>
    if s.take 2 = [46, 46] ∧ startsAtBoundary (s.drop 2) then
      some (s.drop 2, out ++ [.parentDir])
    else if s.take 1 = [46] ∧ startsAtBoundary (s.drop 1) then
      some (s.drop 1, out ++ [.curDir])
    else none
  | some _ => none

/-- Source: parser.rs MEANINGFUL_BYTES. -/
def isMeaningfulByte (b : Nat) : Bool :=
  b = 42 ∨ b = 63 ∨ b = 91 ∨ b = 93 ∨ b = 123 ∨ b = 125 ∨
  b = 60 ∨ b = 62 ∨ b = 44 ∨ b = 58 ∨ b = 47 ∨ b = 92

/-- Source: parser.rs node_literal_string. Takes at least one byte; stops
before the next meaningful byte. The source indexes string from position 1 and
would panic on an empty string, but is only invoked on non-empty input; the
model returns none on empty input (the caller never hits that case). -/
def nodeLiteralString (s : List Nat) (out : List AstNode) :
    Option (List Nat × List AstNode) :=
  match s with
  | [] => none
  | _ :: rest =>
    match rest.findIdx? (fun b => isMeaningfulByte b) with
    | some idx =>
      some (s.drop (idx + 1), out ++ [.literalString (s.take (idx + 1))])
    | none => some ([], out ++ [.literalString s])

/-- The three stop conditions actually passed to parse_nodes by the source:
the constant true closure of parse, the comma-or-closing-brace stop of
node_alternatives, and the colon stop of node_repeat. -/
inductive StopCond where
  | always
  | stopCommaBrace
  | stopColon
deriving DecidableEq

/-- Continuation test of parse_nodes: keep parsing while this is true. -/
def StopCond.eval : StopCond → List Nat → Bool
  | .always, _ => true
  | .stopCommaBrace, s => ¬(s.head? = some 44 ∨ s.head? = some 125)
  | .stopColon, s => ¬(s.head? = some 58)

/-- The recursive entry points of the parser: parse_nodes, the recognisers
node_alternatives and node_repeat (which recurse into parse_nodes), and the
choice loop inside node_alternatives. -/
inductive PCall where
  | pnodes (s : List Nat) (cond : StopCond) (out : List AstNode)
  | alternativesR (s : List Nat) (out : List AstNode)
  | repeatR (s : List Nat) (out : List AstNode)
  | altLoop (s : List Nat) (choices : List Pattern) (currentOut : List AstNode)

/-- Parser outcome: a parse_nodes result, an alternatives-loop result, the Err
of node_alternatives, the panic branch of next_node, or fuel exhaustion. -/
inductive POut where
  | oknodes (rest : List Nat) (out : List AstNode)
  | okchoices (rest : List Nat) (choices : List Pattern)
  | failed
  | panicked
  | fuelOut

/-- Source: parser.rs parse_nodes / next_node / node_alternatives /
node_repeat, as one fuel-indexed stepper.

The pnodes case is parse_nodes: while the input is non-empty and the
condition holds, run next_node, whose recogniser chain is inlined here in
source order (separator, any-character, recurse, wildcard, alternatives,
character class, repeat, cur-or-parent dir, literal); if every recogniser
fails, the source panics. The alternativesR and repeatR cases are the two
recognisers that recurse into parse_nodes; the altLoop case is the choice
loop inside node_alternatives. Fuel only ever runs out on fuel smaller than
3 times the input length plus one (proved below), and fuel exhaustion is
reported as the distinct outcome fuelOut. -/
def parserStep : Nat → PCall → POut
  | 0, .pnodes s cond out =>
    if s.isEmpty ∨ ¬cond.eval s then .oknodes s out else .fuelOut
  | f + 1, .pnodes s cond out =>
    if s.isEmpty ∨ ¬cond.eval s then .oknodes s out
    else
      match nodeSeparator s out with
      | some (s1, out1) => parserStep f (.pnodes s1 cond out1)
      | none =>
      match nodeAnyCharacter s out with
      | some (s1, out1) => parserStep f (.pnodes s1 cond out1)
      | none =>
      match nodeRecurse s out with
      | some (s1, out1) => parserStep f (.pnodes s1 cond out1)
      | none =>
      match nodeWildcard s out with
      | some (s1, out1) => parserStep f (.pnodes s1 cond out1)
      | none =>
      match parserStep f (.alternativesR s out) with
      | .oknodes s1 out1 => parserStep f (.pnodes s1 cond out1)
      | .fuelOut => .fuelOut
      | .panicked => .panicked
      | .okchoices _ _ => .panicked
      | .failed =>
      match nodeCharacterClass s out with
      | some (s1, out1) => parserStep f (.pnodes s1 cond out1)
      | none =>
      match parserStep f (.repeatR s out) with
      | .oknodes s1 out1 => parserStep f (.pnodes s1 cond out1)
      | .fuelOut => .fuelOut
      | .panicked => .panicked
      | .okchoices _ _ => .panicked
      | .failed =>
      match nodeCurOrParentDir s out with
      | some (s1, out1) => parserStep f (.pnodes s1 cond out1)
      | none =>
      match nodeLiteralString s out with
      | some (s1, out1) => parserStep f (.pnodes s1 cond out1)
      | none => .panicked
  | 0, .alternativesR _ _ => .fuelOut
  | f + 1, .alternativesR s out =>
    if s.head? = some 123 then
      match parserStep f (.altLoop (s.drop 1) [] []) with
      | .okchoices s1 choices => .oknodes s1 (out ++ [.alternatives choices])
      | .failed => .failed
      | .fuelOut => .fuelOut
      | .panicked => .panicked
      | .oknodes _ _ => .panicked
    else .failed
  | 0, .repeatR _ _ => .fuelOut
  | f + 1, .repeatR s out =>
    if s.head? = some 60 then
      match parserStep f (.pnodes (s.drop 1) .stopColon []) with
      | .oknodes s1 currentOut =>
        if s1.head? = some 58 then
          let s2 := s1.drop 1
          match s2.findIdx? (fun b => b = 62) with
          | none => .failed
          | some endIndex =>
            let params := s2.take endIndex
            if utf8Valid params then
              let s3 := s2.drop (endIndex + 1)
              match params.findIdx? (fun b => b = 44) with
              | some commaIndex =>
                match parseU32 (params.take commaIndex),
                      parseU32 (params.drop (commaIndex + 1)) with
                | some mn, some mx => .oknodes s3 (out ++ [.repeatN mn mx currentOut])
                | _, _ => .failed
              | none =>
                match parseU32 params with
                | some t => .oknodes s3 (out ++ [.repeatN t t currentOut])
                | none => .failed
            else .failed
        else .failed
      | .fuelOut => .fuelOut
      | .panicked => .panicked
      | .okchoices _ _ => .panicked
      | .failed => .panicked
    else .failed
  | 0, .altLoop _ _ _ => .fuelOut
  | f + 1, .altLoop s choices currentOut =>
    match parserStep f (.pnodes s .stopCommaBrace currentOut) with
    | .oknodes s1 cur1 =>
      match s1.head? with
      | some b =>
        if b = 44 then parserStep f (.altLoop (s1.drop 1) (choices ++ [cur1]) [])
        else if b = 125 then .okchoices (s1.drop 1) (choices ++ [cur1])
        else parserStep f (.altLoop s1 choices cur1)
      | none => .failed
    | .fuelOut => .fuelOut
    | .panicked => .panicked
    | .okchoices _ _ => .panicked
    | .failed => .panicked

/-! ### Path components (std unix behaviour used by parser.rs parse and
matcher.rs path_matches) -/

/-- Typed path components (std path Component, unix flavour: a Prefix
component never occurs on unix but is kept for the matcher opcode model). -/
inductive Component where
  | pfx (s : List Nat)
  | rootDir
  | curDir
  | parentDir
  | normal (s : List Nat)
deriving DecidableEq

/-- Source: std Path::components on unix — a leading slash run is RootDir,
empty segments collapse, a lone dot segment is dropped except at the very
beginning of a relative path, and a double dot stays ParentDir. -/
def pathComponents (bytes : List Nat) : List Component :=
  let segToComp : List Nat → Component := fun seg =>
    if seg = [46, 46] then .parentDir else .normal seg
  let segs := (bytes.splitOn 47).filter (fun seg => seg ≠ [])
  if bytes.head? = some 47 then
    .rootDir :: ((segs.filter (fun seg => seg ≠ [46])).map segToComp)
  else
    match segs with
    | [46] :: rest => .curDir :: ((rest.filter (fun seg => seg ≠ [46])).map segToComp)
    | _ => (segs.filter (fun seg => seg ≠ [46])).map segToComp

/-- Byte rendering of one component (std os_str of a Component). -/
def compBytes : Component → List Nat
  | .pfx s => s
  | .rootDir => [47]
  | .curDir => [46]
  | .parentDir => [46, 46]
  | .normal s => s

/-- Source: parse, phase 1 — peel leading Prefix / RootDir components off the
component iterator, emitting the corresponding AST nodes. -/
def takeRootNodes : List Component → List AstNode × List Component
  | .pfx s :: rest =>
    let (ns, r) := takeRootNodes rest
    (.pfxNode s :: ns, r)
  | .rootDir :: rest =>
    let (ns, r) := takeRootNodes rest
    (.rootDir :: ns, r)
  | other => ([], other)

/-- Source: parse, phase 1 — PathBuf::extend over the remaining components
re-joins them with single slashes. -/
def reconstructPath (cs : List Component) : List Nat :=
  ((cs.map compBytes).intersperse [47]).flatten

/-- Source: parser.rs parse. The outcome is none exactly when the panic branch
of next_node would run (proved unreachable below). -/
def parse (bytes : List Nat) : Option Pattern :=
  let comps := pathComponents bytes
  let (rootNodes, restComps) := takeRootNodes comps
  let rel := reconstructPath restComps
  match parserStep (3 * rel.length + 1) (.pnodes rel .always rootNodes) with
  | .oknodes _ out => some out
  | _ => none

-- sanity checks of the parser model on the concrete patterns used below
example : parse [60, 97, 58, 53, 44, 50, 62] =
    some [.repeatN 5 2 [.literalString [97]]] := by rfl
example : parse [60, 97, 58, 48, 44, 49, 62] =
    some [.repeatN 0 1 [.literalString [97]]] := by rfl
example : parse [91, 97, 45, 122, 93, 105, 108, 101] =
    some [.characters [.range 'a' 'z'], .literalString [105, 108, 101]] := by rfl
example : parse [42, 42] = some [.recurse] := by rfl
example : parse [102, 111, 111, 47, 98, 97, 114] =
    some [.literalString [102, 111, 111], .separator, .literalString [98, 97, 114]] := by rfl
example : parse [47, 97] = some [.rootDir, .literalString [97]] := by rfl
example : parse [123, 97, 44, 98, 125] =
    some [.alternatives [[.literalString [97]], [.literalString [98]]]] := by rfl
example : parse [60, 97, 58, 50, 62] = some [.repeatN 2 2 [.literalString [97]]] := by rfl
example : parse [] = some [] := by rfl

/-! ### Compiler (compiler.rs)

ProgramOffset and CounterId are plain Nat. The PLACEHOLDER offset is
usize::MAX. The append functions are structurally faithful to compiler.rs:
append_program dispatches per node, append_alternatives first pushes the
placeholder Alternative instructions, then compiles each choice (patching the
previous placeholder to point at every choice after the first and recording a
placeholder Jump at the end of every choice), and finally patches the
recorded jumps to the common end label. append_repeat allocates the next
counter (failing once the u16 budget is exhausted) and emits the counter
loop. -/

/-- Source: compiler.rs Instruction. Instruction::Prefix is rendered pfxI. -/
inductive Instruction where
  | separator
  | pfxI (s : List Nat)
  | rootDir
  | curDir
  | parentDir
  | literalString (bytes : List Nat)
  | anyCharacter
  | anyString
  | characters (classes : List CharacterClass)
  | jump (t : Nat)
  | alternative (t : Nat)
  | increment (c : Nat)
  | branchIfLessThan (t : Nat) (c : Nat) (v : Nat)
  | complete
deriving DecidableEq

/-- Source: compiler.rs Program. absolute_prefix is kept as the list of
pushed components (PathBuf is a join of what gets pushed). -/
structure Program where
  instructions : List Instruction
  counters : Nat
  absolutePfx : Option (List (List Nat))
deriving DecidableEq

/-- Source: compiler.rs ProgramOffset::PLACEHOLDER = usize::MAX. -/
def PLACEHOLDER : Nat := 2 ^ 64 - 1

/-- Source: compiler.rs Program::here. -/
def Program.here (p : Program) : Nat := p.instructions.length

/-- Source: compiler.rs append_wildcard_gadget. -/
def appendWildcardGadget (out : Program) : Except String Program :=
  let start := out.here
  .ok { out with instructions := out.instructions ++
    [.alternative (start + 2), .jump (start + 4), .anyCharacter, .jump start] }

mutual

/-- Source: compiler.rs append_program. -/
def appendProgram (out : Program) (node : AstNode) : Except String Program :=
  match node with
  | .separator => .ok { out with instructions := out.instructions ++ [.separator] }
  | .pfxNode s => .ok { out with
      instructions := out.instructions ++ [.pfxI s],
      absolutePfx := some ((out.absolutePfx.getD []) ++ [s]) }
  | .rootDir => .ok { out with
      instructions := out.instructions ++ [.rootDir],
      absolutePfx := some ((out.absolutePfx.getD []) ++ [[47]]) }
  | .curDir => .ok { out with instructions := out.instructions ++ [.curDir] }
  | .parentDir => .ok { out with instructions := out.instructions ++ [.parentDir] }
  | .literalString s => .ok { out with instructions := out.instructions ++ [.literalString s] }
  | .anyCharacter => .ok { out with instructions := out.instructions ++ [.anyCharacter] }
  | .characters cls => .ok { out with instructions := out.instructions ++ [.characters cls] }
  | .wildcard => appendWildcardGadget out
  | .recurse =>
    -- source: append_recurse_gadget
    let start := out.here
    .ok { out with instructions := out.instructions ++
      [.alternative (start + 2), .jump (start + 5), .anyString, .separator, .jump start] }
  | .alternatives choices =>
    -- source: append_alternatives
    let start := out.instructions.length
    let phs : List Instruction := List.replicate (choices.length - 1) (.alternative PLACEHOLDER)
    let out1 := { out with instructions := out.instructions ++ phs }
    match appendChoicesA out1 choices 0 start [] with
    | .error e => .error e
    | .ok (out2, jumps) =>
      let patched := jumps.foldl (fun ins off => ins.set off (.jump out2.here)) out2.instructions
      .ok { out2 with instructions := patched }
  | .repeatN mn mx pat =>
    -- source: append_repeat
    if out.counters ≥ 65535 then
      .error "Exceeded the number of repeats allowed in a glob pattern"
    else
      let counterId := out.counters
      let out1 := { out with counters := out.counters + 1 }
      let start := out1.here
      let out2 := { out1 with instructions := out1.instructions ++ [.increment counterId] }
      match appendNodes out2 pat with
      | .error e => .error e
      | .ok out3 =>
        let out4 := { out3 with instructions := out3.instructions ++
          [.branchIfLessThan start counterId mn] }
        if mx > mn then
          let here := out4.here
          .ok { out4 with instructions := out4.instructions ++
            [.branchIfLessThan (here + 2) counterId mx, .jump (here + 3), .alternative start] }
        else
          .ok out4
termination_by sizeOf node

/-- Source: compiler.rs — the per-node loops in compile, append_alternatives
and append_repeat. -/
def appendNodes (out : Program) (nodes : List AstNode) : Except String Program :=
  match nodes with
  | [] => .ok out
  | n :: rest =>
    match appendProgram out n with
    | .error e => .error e
    | .ok out1 => appendNodes out1 rest
termination_by sizeOf nodes

/-- Source: compiler.rs append_alternatives — the loop over the choices,
carrying the enumeration index, the position of the placeholder block and the
recorded end-jump offsets. -/
def appendChoicesA (out : Program) (pending : List (List AstNode)) (index start : Nat)
    (jumps : List Nat) : Except String (Program × List Nat) :=
  match pending with
  | [] => .ok (out, jumps)
  | choice :: rest =>
    let choiceStart := out.here
    let out1 := if index > 0 then
        { out with instructions :=
          out.instructions.set (start + (index - 1)) (.alternative choiceStart) }
      else out
    match appendNodes out1 choice with
    | .error e => .error e
    | .ok out2 =>
      let jumps1 := jumps ++ [out2.here]
      let out3 := { out2 with instructions := out2.instructions ++ [.jump PLACEHOLDER] }
      appendChoicesA out3 rest (index + 1) start jumps1
termination_by sizeOf pending

end

/-- Source: compiler.rs compile. -/
def compile (pattern : Pattern) : Except String Program :=
  match appendNodes ⟨[], 0, none⟩ pattern with
  | .error e => .error e
  | .ok prog => .ok { prog with instructions := prog.instructions ++ [.complete] }

/-! ### Matcher VM (matcher.rs) -/

/-- Source: matcher.rs MatchResult. The Rust field names valid_as_prefix and
valid_as_complete_match are rendered validAsPfx / validAsMatch. -/
structure MatchResult where
  validAsPfx : Bool
  validAsMatch : Bool
deriving DecidableEq

/-- Source: matcher.rs ProgramState. The peekable component iterator is the
list of remaining components; current_string is the unconsumed byte suffix of
the current Normal component. -/
structure ProgState where
  pc : Nat
  rest : List Component
  cur : Option (List Nat)
  fresh : Bool
  counters : List Nat
deriving DecidableEq

/-- Source: matcher.rs Matcher — the live state, the stack of saved
alternatives (head of the list is the top of the Vec) and the result bits. -/
structure Cfg where
  st : ProgState
  alts : List ProgState
  res : MatchResult
deriving DecidableEq

/-- One advance outcome: continue with a new configuration, halt returning
the accumulated result (advance returned false), or panic. -/
inductive StepRes where
  | cont (c : Cfg)
  | stop (r : MatchResult)
  | panicked
deriving DecidableEq

/-- Source: matcher.rs NextString. -/
inductive NextStr where
  | normal
  | notNormal
  | endOfInput
deriving DecidableEq

/-- Source: matcher.rs Matcher::has_string. -/
def hasString (s : ProgState) : Bool :=
  match s.cur with
  | some b => ¬b.isEmpty
  | none => false

/-- Source: matcher.rs next_string. On a fresh bind the component is consumed
from the iterator, current_string is set to its bytes and fresh_string to
true; a non-Normal head is only peeked. -/
def nextStringM (st : ProgState) : NextStr × ProgState :=
  match st.cur with
  | some _ => (.normal, st)
  | none =>
    match st.rest with
    | .normal bytes :: r => (.normal, { st with rest := r, cur := some bytes, fresh := true })
    | _ :: _ => (.notNormal, st)
    | [] => (.endOfInput, st)

/-- Source: matcher.rs Matcher::next. -/
def nextIns (c : Cfg) : StepRes :=
  .cont { c with st := { c.st with pc := c.st.pc + 1 } }

/-- Source: matcher.rs Matcher::try_alternative. Popping replaces the whole
live state; an empty stack makes advance return false. -/
def tryAlternative (c : Cfg) : StepRes :=
  match c.alts with
  | a :: rest => .cont { c with st := a, alts := rest }
  | [] => .stop c.res

/-- Source: matcher.rs Matcher::end_of_input — record prefix validity, then
backtrack. -/
def endOfInput (c : Cfg) : StepRes :=
  tryAlternative { c with res := { c.res with validAsPfx := true } }

/-- Source: matcher.rs Matcher::complete — record complete validity when the
path is fully consumed, then backtrack. (The source also consumes from the
component iterator while testing exhaustion; the mutated live state is
discarded by the backtrack either way.) -/
def completeI (c : Cfg) : StepRes :=
  if ¬hasString c.st ∧ c.st.rest = [] then
    tryAlternative { c with res := { c.res with validAsMatch := true } }
  else
    tryAlternative c

/-- List.startsWith for byte strings (slice::starts_with). -/
def listStartsWith : List Nat → List Nat → Bool
  | _, [] => true
  | [], _ :: _ => false
  | a :: as1, b :: bs => a = b && listStartsWith as1 bs

/-- Source: matcher.rs Matcher::advance — execute the instruction at the
program counter. Fetching out of bounds, and the todo branch for the
Characters instruction, are panics. Guarded arms whose guards fail fall to
the catch-all, which backtracks. -/
def stepM (prog : Program) (c : Cfg) : StepRes :=
  match prog.instructions[c.st.pc]? with
  | none => .panicked
  | some instr =>
    match instr with
    | .separator =>
      if ¬hasString c.st then
        let c1 := { c with st := { c.st with cur := none } }
        if c1.st.rest.isEmpty then endOfInput c1 else nextIns c1
      else if c.st.fresh then nextIns c
      else tryAlternative c
    | .pfxI s =>
      if ¬hasString c.st then
        match c.st.rest with
        | .pfx p :: r =>
          if p = s then nextIns { c with st := { c.st with rest := r } }
          else tryAlternative { c with st := { c.st with rest := r } }
        | _ :: r => tryAlternative { c with st := { c.st with rest := r } }
        | [] => endOfInput c
      else tryAlternative c
    | .rootDir =>
      if ¬hasString c.st then
        match c.st.rest with
        | .rootDir :: r => nextIns { c with st := { c.st with rest := r } }
        | _ :: r => tryAlternative { c with st := { c.st with rest := r } }
        | [] => endOfInput c
      else tryAlternative c
    | .curDir =>
      if ¬hasString c.st then
        match c.st.rest with
        | .curDir :: r => nextIns { c with st := { c.st with rest := r } }
        | _ :: r => tryAlternative { c with st := { c.st with rest := r } }
        | [] => endOfInput c
      else tryAlternative c
    | .parentDir =>
      if ¬hasString c.st then
        match c.st.rest with
        | .parentDir :: r => nextIns { c with st := { c.st with rest := r } }
        | _ :: r => tryAlternative { c with st := { c.st with rest := r } }
        | [] => endOfInput c
      else tryAlternative c
    | .literalString bytes =>
      match nextStringM c.st with
      | (.normal, st1) =>
        let s := st1.cur.getD []
        if listStartsWith s bytes then
          nextIns { c with st := { st1 with cur := some (s.drop bytes.length), fresh := false } }
        else tryAlternative { c with st := st1 }
      | (.notNormal, st1) => tryAlternative { c with st := st1 }
      | (.endOfInput, st1) => endOfInput { c with st := st1 }
    | .anyCharacter =>
      match nextStringM c.st with
      | (.normal, st1) =>
        let s := st1.cur.getD []
        match lengthOfFirstChar s with
        | some n =>
          nextIns { c with st := { st1 with cur := some (s.drop n), fresh := false } }
        | none => tryAlternative { c with st := st1 }
      | (.notNormal, st1) => tryAlternative { c with st := st1 }
      | (.endOfInput, st1) => endOfInput { c with st := st1 }
    | .anyString =>
      match nextStringM c.st with
      | (.normal, st1) =>
        nextIns { c with st := { st1 with cur := some [], fresh := false } }
      | (.notNormal, st1) => tryAlternative { c with st := st1 }
      | (.endOfInput, st1) => endOfInput { c with st := st1 }
    | .characters _ => .panicked  -- source: todo!()
    | .jump t => .cont { c with st := { c.st with pc := t } }
    | .alternative t =>
      let saved := { c.st with pc := t }
      nextIns { c with alts := saved :: c.alts }
    | .increment cid =>
      match c.st.counters[cid]? with
      | some v =>
        nextIns { c with st :=
          { c.st with counters := c.st.counters.set cid ((v + 1) % 4294967296) } }
      | none => .panicked
    | .branchIfLessThan t cid v =>
      match c.st.counters[cid]? with
      | some cv =>
        if cv < v then .cont { c with st := { c.st with pc := t } } else nextIns c
      | none => .panicked
    | .complete => completeI c

/-- Matcher outcome: a returned MatchResult, a panic, or fuel exhaustion. -/
inductive MOut where
  | ok (r : MatchResult)
  | panicked
  | fuelOut
deriving DecidableEq

/-- Source: matcher.rs path_matches main loop — while a result bit is still
unset, advance; stop when advance returns false. One unit of fuel per
advance. -/
def runLoop (prog : Program) : Nat → Cfg → MOut
  | 0, c =>
    if c.res.validAsPfx && c.res.validAsMatch then .ok c.res else .fuelOut
  | f + 1, c =>
    if c.res.validAsPfx && c.res.validAsMatch then .ok c.res
    else
      match stepM prog c with
      | .panicked => .panicked
      | .stop r => .ok r
      | .cont c1 => runLoop prog f c1

/-- Source: matcher.rs ProgramState::new. -/
def initState (comps : List Component) (numCounters : Nat) : ProgState :=
  ⟨0, comps, none, false, List.replicate numCounters 0⟩

/-- Source: matcher.rs path_matches, with fuel. The path argument is the list
of its typed components (what path.components() yields). -/
def pathMatchesF (fuel : Nat) (prog : Program) (comps : List Component) : MOut :=
  runLoop prog fuel ⟨initState comps prog.counters, [], ⟨false, false⟩⟩

-- sanity: concrete programs (as compiled from the concrete patterns below)
def progRecurse : Program :=
  ⟨[.alternative 2, .jump 5, .anyString, .separator, .jump 0, .complete], 0, none⟩

def progA01 : Program :=
  ⟨[.increment 0, .literalString [97], .branchIfLessThan 0 0 0, .branchIfLessThan 5 0 1,
    .jump 6, .alternative 0, .complete], 1, none⟩

def progClassIle : Program :=
  ⟨[.characters [.range 'a' 'z'], .literalString [105, 108, 101], .complete], 0, none⟩

def progEmpty : Program := ⟨[.complete], 0, none⟩

example : compile [.recurse] = .ok progRecurse := by
  simp [compile, appendNodes, appendProgram, Program.here, progRecurse]
example : compile [.repeatN 0 1 [.literalString [97]]] = .ok progA01 := by
  simp [compile, appendNodes, appendProgram, Program.here, progA01]
example : compile [.characters [.range 'a' 'z'], .literalString [105, 108, 101]] =
    .ok progClassIle := by
  simp [compile, appendNodes, appendProgram, progClassIle]
example : compile [] = .ok progEmpty := by
  simp [compile, appendNodes, progEmpty]

example : pathMatchesF 20 progRecurse [] = .ok ⟨true, true⟩ := by decide
example : pathMatchesF 50 progRecurse [.normal [97]] = .ok ⟨true, false⟩ := by decide
example : pathMatchesF 50 progRecurse [.parentDir] = .ok ⟨false, false⟩ := by decide
example : pathMatchesF 50 progRecurse [.rootDir] = .ok ⟨false, false⟩ := by decide
example : pathMatchesF 50 progRecurse [.normal [97], .normal [98]] = .ok ⟨true, false⟩ := by
  decide

example : pathMatchesF 50 progA01 [] = .ok ⟨true, false⟩ := by decide
example : pathMatchesF 50 progA01 [.normal [97]] = .ok ⟨false, true⟩ := by decide
example : pathMatchesF 50 progA01 [.normal [97, 97]] = .ok ⟨false, false⟩ := by decide

example : pathMatchesF 50 progClassIle [.normal [102, 105, 108, 101]] = .panicked := by decide

example : pathMatchesF 50 progEmpty [] = .ok ⟨false, true⟩ := by decide
example : pathMatchesF 50 progEmpty [.normal [97]] = .ok ⟨false, false⟩ := by decide

/-! ### Concrete patterns used by the claims -/

/-- AST of the pattern `[a-z]ile`. -/
def patClassIle : Pattern := [.characters [.range 'a' 'z'], .literalString [105, 108, 101]]

/-- AST of the pattern `<a:0,1>`. -/
def patA01 : Pattern := [.repeatN 0 1 [.literalString [97]]]

/-! ### Claims C1, C2 — the Characters todo panic -/

/-- C1: the claim states that path_matches is total — for every path and
compiled program it returns a MatchResult without raising, in particular for
Characters instructions. The code refutes this: Matcher::advance has
`Instruction::Characters(_) => todo!()`, so any program with a reachable
Characters instruction panics. This theorem exhibits the failure on the
program compiled from `[a-z]ile` and the path `file`: for every positive
fuel, the run panics instead of returning. -/
theorem c1_matching_not_total :
    parse [91, 97, 45, 122, 93, 105, 108, 101] = some patClassIle ∧
    compile patClassIle = .ok progClassIle ∧
    ∀ fuel, 1 ≤ fuel →
      pathMatchesF fuel progClassIle [.normal [102, 105, 108, 101]] = .panicked := by
  refine ⟨by rfl, ?_, ?_⟩
  · simp [compile, appendNodes, appendProgram, patClassIle, progClassIle]
  · intro fuel hfuel
    match fuel, hfuel with
    | f + 1, _ => rfl

/-- C1 witness: the universally quantified part of c1_matching_not_total
holds at fuel 1. -/
theorem c1_matching_not_total_witness :
    pathMatchesF 1 progClassIle [.normal [102, 105, 108, 101]] = .panicked :=
  c1_matching_not_total.2.2 1 (by decide)

/-- C2: the claim states that matching `[a-z]ile` (parsed then compiled)
against the path `file` returns a complete match. The code refutes this: the
compiled program starts with a Characters instruction and Matcher::advance
executes `todo!()` on it, panicking before any result is produced. -/
theorem c2_class_ile_match_panics :
    parse [91, 97, 45, 122, 93, 105, 108, 101] = some patClassIle ∧
    compile patClassIle = .ok progClassIle ∧
    pathMatchesF 50 progClassIle [.normal [102, 105, 108, 101]] = .panicked ∧
    (MOut.panicked ≠ .ok ⟨false, true⟩) := by
  refine ⟨by rfl, ?_, by decide, by decide⟩
  simp [compile, appendNodes, appendProgram, patClassIle, progClassIle]

/-! ### Claim C3 — repeat with min = 0 -/

/-- C3 counterexample: the claim says the program compiled from `<a:0,1>`
gives a complete match on the empty path. It does not: the repeat gadget
increments the counter and enters the body unconditionally, so on the empty
path the LiteralString body hits end of input and the run returns prefix
validity only (valid_as_complete_match is false). -/
theorem c3_counterexample :
    parse [60, 97, 58, 48, 44, 49, 62] = some patA01 ∧
    compile patA01 = .ok progA01 ∧
    pathMatchesF 50 progA01 [] = .ok ⟨true, false⟩ := by
  refine ⟨by rfl, ?_, by decide⟩
  simp [compile, appendNodes, appendProgram, Program.here, patA01, progA01]

/-- C3 amended: the compiled Repeat gadget always executes the sub-pattern at
least once — it matches the sub-pattern between max(min, 1) and max times
inclusive. For the program compiled from `<a:0,1>`: the empty path yields
prefix validity only, the path `a` (one iteration) is a complete match, and
the path `aa` (which would need two iterations, above max) matches neither
way. -/
theorem c3_repeat_amended :
    parse [60, 97, 58, 48, 44, 49, 62] = some patA01 ∧
    compile patA01 = .ok progA01 ∧
    pathMatchesF 50 progA01 [] = .ok ⟨true, false⟩ ∧
    pathMatchesF 50 progA01 [.normal [97]] = .ok ⟨false, true⟩ ∧
    pathMatchesF 50 progA01 [.normal [97, 97]] = .ok ⟨false, false⟩ := by
  refine ⟨by rfl, ?_, by decide, by decide, by decide⟩
  simp [compile, appendNodes, appendProgram, Program.here, patA01, progA01]

/-! ### Claim C4 — the parser does not enforce min ≤ max -/

/-- C4 counterexample: the claim says every Repeat node returned by parse
satisfies min ≤ max, and specifically that `<a:5,2>` cannot yield
Repeat{min = 5, max = 2}. It does: node_repeat parses the two bounds
verbatim with no comparison. -/
theorem c4_counterexample :
    parse [60, 97, 58, 53, 44, 50, 62] = some [.repeatN 5 2 [.literalString [97]]] ∧
    ¬(5 ≤ 2) := by
  exact ⟨by rfl, by decide⟩

/-- C4 amended: node_repeat takes the two decimal bounds verbatim and
performs no min ≤ max validation, so `<a:5,2>` parses to Repeat{min = 5,
max = 2} (and `<a:2,5>` to Repeat{min = 2, max = 5}). -/
theorem c4_no_min_max_validation :
    parse [60, 97, 58, 53, 44, 50, 62] = some [.repeatN 5 2 [.literalString [97]]] ∧
    parse [60, 97, 58, 50, 44, 53, 62] = some [.repeatN 2 5 [.literalString [97]]] := by
  exact ⟨by rfl, by rfl⟩

/-! ### Claim C6 — `**` alone -/

/-- C6: the claim states that the program compiled from `**` alone returns
valid_as_complete_match = true and valid_as_prefix = true for every path,
including paths with non-Normal components. The code refutes this: the
recurse gadget can only exit at the top of its loop, before the final
AnyString / Separator pair, so after consuming the last component the
Separator hits end of input. On the one-component path `a` the run returns
prefix validity only; on the path `..` (a ParentDir component, which
AnyString treats as a mismatch) it returns neither bit. Only the empty path
yields both bits. -/
theorem c6_recurse_incomplete :
    parse [42, 42] = some [.recurse] ∧
    compile [.recurse] = .ok progRecurse ∧
    pathMatchesF 50 progRecurse [.normal [97]] = .ok ⟨true, false⟩ ∧
    pathMatchesF 50 progRecurse [.parentDir] = .ok ⟨false, false⟩ ∧
    pathMatchesF 50 progRecurse [] = .ok ⟨true, true⟩ := by
  refine ⟨by rfl, ?_, by decide, by decide, by decide⟩
  simp [compile, appendNodes, appendProgram, Program.here, progRecurse]

/-! ### Claim C9 — the empty pattern -/

/-- C9: the program compiled from the empty pattern is a lone Complete
instruction; matching the empty path returns valid_as_complete_match = true
and valid_as_prefix = false, and matching any non-empty path returns both
bits false (Complete sees an unconsumed component, and with no alternatives
to try the run halts immediately). -/
theorem c9_empty_pattern :
    compile [] = .ok progEmpty ∧
    pathMatchesF 1 progEmpty [] = .ok ⟨false, true⟩ ∧
    ∀ fuel c cs, 1 ≤ fuel →
      pathMatchesF fuel progEmpty (c :: cs) = .ok ⟨false, false⟩ := by
  refine ⟨by simp [compile, appendNodes, progEmpty], by decide, ?_⟩
  intro fuel c cs hfuel
  match fuel, hfuel with
  | f + 1, _ =>
    simp only [pathMatchesF, runLoop, initState]
    cases c <;> rfl

/-- C9 witness: the universally quantified part of c9_empty_pattern holds at
fuel 1 on the path with the single component `a`. -/
theorem c9_empty_pattern_witness :
    pathMatchesF 1 progEmpty [.normal [97]] = .ok ⟨false, false⟩ :=
  c9_empty_pattern.2.2 1 (.normal [97]) [] (by decide)

/-! ### Parser totality (claim C7)

The panic branch of next_node runs only if every recogniser fails, and
node_literal_string always succeeds on non-empty input; parse_nodes stops
exactly at the empty string or at a byte its stop condition reserves; and
every recogniser consumes at least one byte, so fuel 3|s| + 1 can never run
out. These facts are proved together by induction on fuel. -/

theorem utf8DecodeFirst_pos {s : List Nat} {c : Char} {n : Nat}
    (h : utf8DecodeFirst s = some (c, n)) : 1 ≤ n := by
  match s with
  | [] => simp [utf8DecodeFirst] at h
  | b1 :: rest =>
    simp only [utf8DecodeFirst] at h
    repeat' split at h
    all_goals
      first
      | (simp only [Option.some.injEq, Prod.mk.injEq] at h; omega)
      | exact absurd h (by simp)

theorem utf8DecodeFirst_ne_nil {s : List Nat} {c : Char} {n : Nat}
    (h : utf8DecodeFirst s = some (c, n)) : s ≠ [] := by
  intro hs
  subst hs
  simp [utf8DecodeFirst] at h

theorem getUtf8Char_length {s r : List Nat} {c : Char}
    (h : getUtf8Char s = some (c, r)) : r.length < s.length := by
  unfold getUtf8Char at h
  match hd : utf8DecodeFirst s with
  | none => rw [hd] at h; exact absurd h (by simp)
  | some (c0, n) =>
    rw [hd] at h
    have h1 : 1 ≤ n := utf8DecodeFirst_pos hd
    have h2 : s ≠ [] := utf8DecodeFirst_ne_nil hd
    have h3 : 0 < s.length := List.length_pos.mpr h2
    simp only [Option.some.injEq, Prod.mk.injEq] at h
    rw [← h.2]
    simp only [List.length_drop]
    omega

theorem nodeSeparator_length {s s1 : List Nat} {out out1 : List AstNode}
    (h : nodeSeparator s out = some (s1, out1)) : s1.length < s.length := by
  unfold nodeSeparator at h
  match hg : getUtf8Char s with
  | none => simp only [hg] at h; exact absurd h (by simp)
  | some (ch, rest) =>
    simp only [hg] at h
    split at h
    · simp only [Option.some.injEq, Prod.mk.injEq] at h
      rw [← h.1]
      exact getUtf8Char_length hg
    · exact absurd h (by simp)

theorem nodeAnyCharacter_length {s s1 : List Nat} {out out1 : List AstNode}
    (h : nodeAnyCharacter s out = some (s1, out1)) : s1.length < s.length := by
  unfold nodeAnyCharacter at h
  split at h
  case isTrue hh =>
    simp only [Option.some.injEq, Prod.mk.injEq] at h
    have : s ≠ [] := by intro he; subst he; simp at hh
    have : 0 < s.length := List.length_pos.mpr this
    rw [← h.1]
    simp only [List.length_drop]
    omega
  case isFalse => exact absurd h (by simp)

theorem nodeRecurse_length {s s1 : List Nat} {out out1 : List AstNode}
    (h : nodeRecurse s out = some (s1, out1)) : s1.length < s.length := by
  unfold nodeRecurse at h
  split at h
  case isTrue hh =>
    simp only [Option.some.injEq, Prod.mk.injEq] at h
    have h2 : (s.take 2).length = 2 := by rw [hh]; rfl
    simp only [List.length_take] at h2
    rw [← h.1]
    simp only [List.length_drop]
    omega
  case isFalse => exact absurd h (by simp)

theorem nodeWildcard_length {s s1 : List Nat} {out out1 : List AstNode}
    (h : nodeWildcard s out = some (s1, out1)) : s1.length < s.length := by
  unfold nodeWildcard at h
  split at h
  case isTrue hh =>
    simp only [Option.some.injEq, Prod.mk.injEq] at h
    have : s ≠ [] := by intro he; subst he; simp at hh
    have : 0 < s.length := List.length_pos.mpr this
    rw [← h.1]
    simp only [List.length_drop]
    omega
  case isFalse => exact absurd h (by simp)

theorem charClassItem_le {startChar : Char} {s1 s2 : List Nat}
    {item : CharacterClass}
    (h : charClassItem startChar s1 = some (item, s2)) : s2.length ≤ s1.length := by
  unfold charClassItem at h
  split at h
  · match hg2 : getUtf8Char (s1.drop 1) with
    | none => rw [hg2] at h; exact absurd h (by simp)
    | some (endChar, s3) =>
      rw [hg2] at h
      have hlt : s3.length < (s1.drop 1).length := getUtf8Char_length hg2
      simp only [List.length_drop] at hlt
      obtain ⟨h1, h2⟩ := Prod.mk.injEq .. ▸ (Option.some.injEq .. ▸ h)
      subst h2
      omega
  · obtain ⟨h1, h2⟩ := Prod.mk.injEq .. ▸ (Option.some.injEq .. ▸ h)
    subst h2
    omega

theorem charClassLoop_le {f : Nat} {s r : List Nat}
    {cl cls : List CharacterClass}
    (h : charClassLoop f s cl = some (r, cls)) : r.length ≤ s.length := by
  induction f generalizing s cl cls r with
  | zero => simp [charClassLoop] at h
  | succ f ih =>
    rw [charClassLoop] at h
    match hg : getUtf8Char s with
    | none => simp only [hg] at h; exact absurd h (by simp)
    | some (startChar, s1) =>
      simp only [hg] at h
      have hlt1 : s1.length < s.length := getUtf8Char_length hg
      match hi : charClassItem startChar s1 with
      | none => simp only [hi] at h; exact absurd h (by simp)
      | some (item, s2) =>
        simp only [hi] at h
        have hle2 : s2.length ≤ s1.length := charClassItem_le hi
        match hh : s2.head? with
        | none => simp only [hh] at h; exact absurd h (by simp)
        | some b =>
          simp only [hh] at h
          split at h
          · obtain ⟨h1, h2⟩ := Prod.mk.injEq .. ▸ (Option.some.injEq .. ▸ h)
            rw [← h1]
            simp only [List.length_drop]
            omega
          · have := ih h
            omega

theorem nodeCharacterClass_length {s s1 : List Nat} {out out1 : List AstNode}
    (h : nodeCharacterClass s out = some (s1, out1)) : s1.length < s.length := by
  unfold nodeCharacterClass at h
  split at h
  case isTrue hh =>
    match hcl : charClassLoop s.length (s.drop 1) [] with
    | none => simp only [hcl] at h; exact absurd h (by simp)
    | some (rest, classes) =>
      simp only [hcl] at h
      have hle : rest.length ≤ (s.drop 1).length := charClassLoop_le hcl
      have hne : s ≠ [] := by intro he; subst he; simp at hh
      have hpos : 0 < s.length := List.length_pos.mpr hne
      simp only [List.length_drop] at hle
      obtain ⟨h1, h2⟩ := Prod.mk.injEq .. ▸ (Option.some.injEq .. ▸ h)
      subst h1
      omega
  case isFalse => exact absurd h (by simp)

theorem nodeCurOrParentDir_length {s s1 : List Nat} {out out1 : List AstNode}
    (h : nodeCurOrParentDir s out = some (s1, out1)) : s1.length < s.length := by
  unfold nodeCurOrParentDir at h
  have main : (if s.take 2 = [46, 46] ∧ startsAtBoundary (s.drop 2) then
        some (s.drop 2, out ++ [AstNode.parentDir])
      else if s.take 1 = [46] ∧ startsAtBoundary (s.drop 1) then
        some (s.drop 1, out ++ [AstNode.curDir])
      else none) = some (s1, out1) → s1.length < s.length := by
    intro hm
    split at hm
    case isTrue hc =>
      have h2 : (s.take 2).length = 2 := by rw [hc.1]; rfl
      simp only [List.length_take] at h2
      simp only [Option.some.injEq, Prod.mk.injEq] at hm
      rw [← hm.1]
      simp only [List.length_drop]
      omega
    case isFalse =>
      split at hm
      case isTrue hc =>
        have h2 : (s.take 1).length = 1 := by rw [hc.1]; rfl
        simp only [List.length_take] at h2
        simp only [Option.some.injEq, Prod.mk.injEq] at hm
        rw [← hm.1]
        simp only [List.length_drop]
        omega
      case isFalse => exact absurd hm (by simp)
  match hl : out.getLast? with
  | none => rw [hl] at h; exact main h
  | some .rootDir => rw [hl] at h; exact main h
  | some .separator => rw [hl] at h; exact main h
  | some (.pfxNode _) => rw [hl] at h; exact absurd h (by simp)
  | some .curDir => rw [hl] at h; exact absurd h (by simp)
  | some .parentDir => rw [hl] at h; exact absurd h (by simp)
  | some .recurse => rw [hl] at h; exact absurd h (by simp)
  | some (.literalString _) => rw [hl] at h; exact absurd h (by simp)
  | some .anyCharacter => rw [hl] at h; exact absurd h (by simp)
  | some .wildcard => rw [hl] at h; exact absurd h (by simp)
  | some (.characters _) => rw [hl] at h; exact absurd h (by simp)
  | some (.alternatives _) => rw [hl] at h; exact absurd h (by simp)
  | some (.repeatN _ _ _) => rw [hl] at h; exact absurd h (by simp)

theorem nodeLiteralString_length {s s1 : List Nat} {out out1 : List AstNode}
    (h : nodeLiteralString s out = some (s1, out1)) : s1.length < s.length := by
  match s with
  | [] => exact absurd h (by simp [nodeLiteralString])
  | b :: rest =>
    simp only [nodeLiteralString] at h
    match hf : rest.findIdx? (fun b => isMeaningfulByte b) with
    | some idx =>
      rw [hf] at h
      simp only [Option.some.injEq, Prod.mk.injEq] at h
      rw [← h.1]
      simp only [List.length_drop, List.length_cons]
      omega
    | none =>
      rw [hf] at h
      simp only [Option.some.injEq, Prod.mk.injEq] at h
      rw [← h.1]
      simp

theorem nodeLiteralString_isSome {s : List Nat} (out : List AstNode) (hs : s ≠ []) :
    ∃ s1 out1, nodeLiteralString s out = some (s1, out1) := by
  match s with
  | [] => exact absurd rfl hs
  | b :: rest =>
    simp only [nodeLiteralString]
    match hf : rest.findIdx? (fun b => isMeaningfulByte b) with
    | some idx => exact ⟨_, _, rfl⟩
    | none => exact ⟨_, _, rfl⟩

/-- Outcome predicate for parse_nodes: it cannot fail, panic or produce a
choice list; a successful result consumes no more than the input and stops
exactly where the stop condition (or the end of input) demands; fuel can only
run out when it was below 3 times the input length plus one. -/
def pnodesOk (s : List Nat) (cond : StopCond) (fuel : Nat) : POut → Prop
  | .oknodes s1 _ => s1.length ≤ s.length ∧ (s1 = [] ∨ cond.eval s1 = false)
  | .failed => False
  | .panicked => False
  | .okchoices _ _ => False
  | .fuelOut => fuel < 3 * s.length + 1

/-- Outcome predicate for the recursive recognisers node_alternatives and
node_repeat: no panic, no choice-list result, success consumes at least one
byte, and fuel exhaustion needs low fuel. -/
def recOk (s : List Nat) (fuel : Nat) : POut → Prop
  | .oknodes s1 _ => s1.length < s.length
  | .failed => True
  | .panicked => False
  | .okchoices _ _ => False
  | .fuelOut => fuel < 3 * s.length ∨ fuel = 0

/-- Outcome predicate for the choice loop of node_alternatives. -/
def altLoopOk (s : List Nat) (fuel : Nat) : POut → Prop
  | .okchoices r _ => r.length < s.length
  | .failed => True
  | .panicked => False
  | .oknodes _ _ => False
  | .fuelOut => fuel < 3 * s.length + 2

/-- The combined parser invariant, per call kind. -/
def PSpec : Nat → PCall → Prop
  | fuel, .pnodes s cond out => pnodesOk s cond fuel (parserStep fuel (.pnodes s cond out))
  | fuel, .alternativesR s out => recOk s fuel (parserStep fuel (.alternativesR s out))
  | fuel, .repeatR s out => recOk s fuel (parserStep fuel (.repeatR s out))
  | fuel, .altLoop s ch cur => altLoopOk s fuel (parserStep fuel (.altLoop s ch cur))

theorem pnodesOk_step {s s1 : List Nat} {cond : StopCond} {f : Nat} {r : POut}
    (h : pnodesOk s1 cond f r) (hlen : s1.length < s.length) :
    pnodesOk s cond (f + 1) r := by
  cases r with
  | oknodes s2 out2 => exact ⟨le_trans h.1 (le_of_lt hlen), h.2⟩
  | failed => exact h
  | panicked => exact h
  | okchoices _ _ => exact h
  | fuelOut =>
    simp only [pnodesOk] at h ⊢
    omega

theorem parserStep_spec : ∀ (fuel : Nat) (call : PCall), PSpec fuel call := by
  intro fuel
  induction fuel with
  | zero =>
    intro call
    match call with
    | .pnodes s cond out =>
      simp only [PSpec, parserStep]
      split
      case isTrue hstop =>
        refine ⟨le_refl _, ?_⟩
        rcases hstop with h1 | h2
        · exact Or.inl (List.isEmpty_iff.mp h1)
        · exact Or.inr (Bool.eq_false_iff.mpr h2)
      case isFalse =>
        simp only [pnodesOk]
        omega
    | .alternativesR s out =>
      show recOk s 0 .fuelOut
      exact Or.inr rfl
    | .repeatR s out =>
      show recOk s 0 .fuelOut
      exact Or.inr rfl
    | .altLoop s ch cur =>
      show altLoopOk s 0 .fuelOut
      simp only [altLoopOk]
      omega
  | succ f ih =>
    intro call
    match call with
    | .pnodes s cond out =>
      simp only [PSpec, parserStep]
      split
      case isTrue hstop =>
        refine ⟨le_refl _, ?_⟩
        rcases hstop with h1 | h2
        · exact Or.inl (List.isEmpty_iff.mp h1)
        · exact Or.inr (Bool.eq_false_iff.mpr h2)
      case isFalse hstop =>
        have hne : s ≠ [] := fun he => hstop (Or.inl (by simp [he]))
        have hlen1 : 1 ≤ s.length := List.length_pos.mpr hne
        match h1 : nodeSeparator s out with
        | some (s1, out1) =>
          show pnodesOk s cond (f + 1) (parserStep f (.pnodes s1 cond out1))
          have hstepih := ih (.pnodes s1 cond out1)
          simp only [PSpec] at hstepih
          exact pnodesOk_step hstepih (nodeSeparator_length h1)
        | none =>
        match h2 : nodeAnyCharacter s out with
        | some (s1, out1) =>
          show pnodesOk s cond (f + 1) (parserStep f (.pnodes s1 cond out1))
          have hstepih := ih (.pnodes s1 cond out1)
          simp only [PSpec] at hstepih
          exact pnodesOk_step hstepih (nodeAnyCharacter_length h2)
        | none =>
        match h3 : nodeRecurse s out with
        | some (s1, out1) =>
          show pnodesOk s cond (f + 1) (parserStep f (.pnodes s1 cond out1))
          have hstepih := ih (.pnodes s1 cond out1)
          simp only [PSpec] at hstepih
          exact pnodesOk_step hstepih (nodeRecurse_length h3)
        | none =>
        match h4 : nodeWildcard s out with
        | some (s1, out1) =>
          show pnodesOk s cond (f + 1) (parserStep f (.pnodes s1 cond out1))
          have hstepih := ih (.pnodes s1 cond out1)
          simp only [PSpec] at hstepih
          exact pnodesOk_step hstepih (nodeWildcard_length h4)
        | none =>
        have iha := ih (.alternativesR s out)
        simp only [PSpec] at iha
        match h5 : parserStep f (.alternativesR s out) with
        | .oknodes s1 out1 =>
          rw [h5] at iha
          simp only [recOk] at iha
          show pnodesOk s cond (f + 1) (parserStep f (.pnodes s1 cond out1))
          have hstepih := ih (.pnodes s1 cond out1)
          simp only [PSpec] at hstepih
          exact pnodesOk_step hstepih iha
        | .panicked => rw [h5] at iha; exact iha.elim
        | .okchoices r ch => rw [h5] at iha; exact iha.elim
        | .fuelOut =>
          rw [h5] at iha
          simp only [recOk] at iha
          show pnodesOk s cond (f + 1) .fuelOut
          simp only [pnodesOk]
          omega
        | .failed =>
        match h6 : nodeCharacterClass s out with
        | some (s1, out1) =>
          show pnodesOk s cond (f + 1) (parserStep f (.pnodes s1 cond out1))
          have hstepih := ih (.pnodes s1 cond out1)
          simp only [PSpec] at hstepih
          exact pnodesOk_step hstepih (nodeCharacterClass_length h6)
        | none =>
        have ihr := ih (.repeatR s out)
        simp only [PSpec] at ihr
        match h7 : parserStep f (.repeatR s out) with
        | .oknodes s1 out1 =>
          rw [h7] at ihr
          simp only [recOk] at ihr
          show pnodesOk s cond (f + 1) (parserStep f (.pnodes s1 cond out1))
          have hstepih := ih (.pnodes s1 cond out1)
          simp only [PSpec] at hstepih
          exact pnodesOk_step hstepih ihr
        | .panicked => rw [h7] at ihr; exact ihr.elim
        | .okchoices r ch => rw [h7] at ihr; exact ihr.elim
        | .fuelOut =>
          rw [h7] at ihr
          simp only [recOk] at ihr
          show pnodesOk s cond (f + 1) .fuelOut
          simp only [pnodesOk]
          omega
        | .failed =>
        match h8 : nodeCurOrParentDir s out with
        | some (s1, out1) =>
          show pnodesOk s cond (f + 1) (parserStep f (.pnodes s1 cond out1))
          have hstepih := ih (.pnodes s1 cond out1)
          simp only [PSpec] at hstepih
          exact pnodesOk_step hstepih (nodeCurOrParentDir_length h8)
        | none =>
        match h9 : nodeLiteralString s out with
        | some (s1, out1) =>
          show pnodesOk s cond (f + 1) (parserStep f (.pnodes s1 cond out1))
          have hstepih := ih (.pnodes s1 cond out1)
          simp only [PSpec] at hstepih
          exact pnodesOk_step hstepih (nodeLiteralString_length h9)
        | none =>
          obtain ⟨s1, out1, h10⟩ := nodeLiteralString_isSome out hne
          rw [h9] at h10
          exact absurd h10 (by simp)
    | .alternativesR s out =>
      simp only [PSpec, parserStep]
      split
      case isTrue hh =>
        have hne : s ≠ [] := by intro he; subst he; simp at hh
        have hlen1 : 1 ≤ s.length := List.length_pos.mpr hne
        have ihl := ih (.altLoop (s.drop 1) [] [])
        simp only [PSpec] at ihl
        match hl : parserStep f (.altLoop (s.drop 1) [] []) with
        | .okchoices s1 choices =>
          rw [hl] at ihl
          simp only [altLoopOk, List.length_drop] at ihl
          show recOk s (f + 1) (.oknodes s1 (out ++ [.alternatives choices]))
          simp only [recOk]
          omega
        | .failed => show recOk s (f + 1) .failed; exact trivial
        | .panicked => rw [hl] at ihl; exact ihl.elim
        | .oknodes _ _ => rw [hl] at ihl; exact ihl.elim
        | .fuelOut =>
          rw [hl] at ihl
          simp only [altLoopOk, List.length_drop] at ihl
          show recOk s (f + 1) .fuelOut
          simp only [recOk]
          omega
      case isFalse => show recOk s (f + 1) .failed; exact trivial
    | .repeatR s out =>
      simp only [PSpec, parserStep]
      split
      case isTrue hh =>
        have hne : s ≠ [] := by intro he; subst he; simp at hh
        have hlen1 : 1 ≤ s.length := List.length_pos.mpr hne
        have ihp := ih (.pnodes (s.drop 1) .stopColon [])
        simp only [PSpec] at ihp
        match hp : parserStep f (.pnodes (s.drop 1) .stopColon []) with
        | .oknodes s1 currentOut =>
          rw [hp] at ihp
          simp only [pnodesOk, List.length_drop] at ihp
          have hle1 : s1.length ≤ s.length - 1 := ihp.1
          dsimp only
          repeat' split
          all_goals
            first
            | exact trivial
            | (simp only [recOk, List.length_drop]; omega)
        | .failed => rw [hp] at ihp; exact ihp.elim
        | .panicked => rw [hp] at ihp; exact ihp.elim
        | .okchoices _ _ => rw [hp] at ihp; exact ihp.elim
        | .fuelOut =>
          rw [hp] at ihp
          simp only [pnodesOk, List.length_drop] at ihp
          show recOk s (f + 1) .fuelOut
          simp only [recOk]
          omega
      case isFalse => show recOk s (f + 1) .failed; exact trivial
    | .altLoop s choices currentOut =>
      simp only [PSpec, parserStep]
      have ihp := ih (.pnodes s .stopCommaBrace currentOut)
      simp only [PSpec] at ihp
      match hp : parserStep f (.pnodes s .stopCommaBrace currentOut) with
      | .oknodes s1 cur1 =>
        rw [hp] at ihp
        simp only [pnodesOk] at ihp
        obtain ⟨hle, hpost⟩ := ihp
        dsimp only
        match hh : s1.head? with
        | none => exact trivial
        | some b =>
          dsimp only
          have hs1ne : s1 ≠ [] := by intro he; subst he; simp at hh
          have hs1pos : 1 ≤ s1.length := List.length_pos.mpr hs1ne
          have hb : b = 44 ∨ b = 125 := by
            rcases hpost with hnil | hev
            · subst hnil; simp at hh
            · simp only [StopCond.eval, hh] at hev
              simp at hev
              by_cases h44x : b = 44
              · exact Or.inl h44x
              · exact Or.inr (hev h44x)
          split
          case isTrue h44 =>
            have ihl2 := ih (.altLoop (s1.drop 1) (choices ++ [cur1]) [])
            simp only [PSpec] at ihl2
            match hl2 : parserStep f (.altLoop (s1.drop 1) (choices ++ [cur1]) []) with
            | .okchoices r ch =>
              rw [hl2] at ihl2
              simp only [altLoopOk, List.length_drop] at ihl2
              show altLoopOk s (f + 1) (.okchoices r ch)
              simp only [altLoopOk]
              omega
            | .failed => exact trivial
            | .panicked => rw [hl2] at ihl2; exact ihl2.elim
            | .oknodes _ _ => rw [hl2] at ihl2; exact ihl2.elim
            | .fuelOut =>
              rw [hl2] at ihl2
              simp only [altLoopOk, List.length_drop] at ihl2
              show altLoopOk s (f + 1) .fuelOut
              simp only [altLoopOk]
              omega
          case isFalse h44 =>
            split
            case isTrue h125 =>
              show altLoopOk s (f + 1) (.okchoices (s1.drop 1) (choices ++ [cur1]))
              simp only [altLoopOk, List.length_drop]
              omega
            case isFalse h125 =>
              rcases hb with hb | hb
              · exact absurd hb h44
              · exact absurd hb h125
      | .failed => rw [hp] at ihp; exact ihp.elim
      | .panicked => rw [hp] at ihp; exact ihp.elim
      | .okchoices _ _ => rw [hp] at ihp; exact ihp.elim
      | .fuelOut =>
        rw [hp] at ihp
        simp only [pnodesOk] at ihp
        show altLoopOk s (f + 1) .fuelOut
        simp only [altLoopOk]
        omega

/-- C7: totality of parsing — for every input byte string, parse returns a
Pattern and never raises. The only panic in the parser is the branch of
next_node taken when every recogniser fails; node_literal_string succeeds on
any non-empty input (malformed constructs degrade to literal bytes), so that
branch is unreachable, and the fuel supplied by the parse wrapper is proved
sufficient, so the model returns some pattern on every input. -/
theorem c7_parsing_total (bytes : List Nat) : ∃ pat, parse bytes = some pat := by
  unfold parse
  rcases hrt : takeRootNodes (pathComponents bytes) with ⟨rootNodes, restComps⟩
  simp only [hrt]
  have spec := parserStep_spec (3 * (reconstructPath restComps).length + 1)
    (.pnodes (reconstructPath restComps) .always rootNodes)
  simp only [PSpec] at spec
  match hres : parserStep (3 * (reconstructPath restComps).length + 1)
      (.pnodes (reconstructPath restComps) .always rootNodes) with
  | .oknodes rest out => exact ⟨out, rfl⟩
  | .failed => rw [hres] at spec; exact spec.elim
  | .panicked => rw [hres] at spec; exact spec.elim
  | .okchoices r ch => rw [hres] at spec; exact spec.elim
  | .fuelOut =>
    rw [hres] at spec
    simp only [pnodesOk] at spec
    omega

/-! ### Counter bound (claim C8)

compile can only fail through append_repeat, which errors exactly when it is
entered with the counter budget already full; counters grow by one per Repeat
node processed, in source order. -/

mutual

/-- Number of Repeat nodes in one AST node, nested ones included. -/
def countRepeats : AstNode → Nat
  | .alternatives choices => countRepeatsChoices choices
  | .repeatN _ _ pat => 1 + countRepeatsList pat
  | .separator | .pfxNode _ | .rootDir | .curDir | .parentDir | .recurse
  | .literalString _ | .anyCharacter | .wildcard | .characters _ => 0
termination_by node => sizeOf node

/-- Number of Repeat nodes in a node list. -/
def countRepeatsList : List AstNode → Nat
  | [] => 0
  | n :: rest => countRepeats n + countRepeatsList rest
termination_by nodes => sizeOf nodes

/-- Number of Repeat nodes in a choice list. -/
def countRepeatsChoices : List (List AstNode) → Nat
  | [] => 0
  | c :: rest => countRepeatsList c + countRepeatsChoices rest
termination_by chs => sizeOf chs

end

example : countRepeatsList patA01 = 1 := by
  simp [patA01, countRepeatsList, countRepeats]

example : countRepeatsList [.repeatN 1 2 [.repeatN 3 4 [.literalString [97]]],
    .alternatives [[.repeatN 0 0 []], []]] = 3 := by
  simp [countRepeatsList, countRepeats, countRepeatsChoices]

theorem appendCounters : ∀ (n : Nat),
    (∀ (node : AstNode), sizeOf node ≤ n →
      (∀ (prog prog2 : Program), appendProgram prog node = .ok prog2 →
        prog2.counters = prog.counters + countRepeats node) ∧
      (∀ (prog prog2 : Program), appendProgram prog node = .ok prog2 →
        prog.counters ≤ 65535 → prog.counters + countRepeats node ≤ 65535) ∧
      (∀ (prog : Program) (e : String), appendProgram prog node = .error e →
        65535 < prog.counters + countRepeats node)) ∧
    (∀ (nodes : List AstNode), sizeOf nodes ≤ n →
      (∀ (prog prog2 : Program), appendNodes prog nodes = .ok prog2 →
        prog2.counters = prog.counters + countRepeatsList nodes) ∧
      (∀ (prog prog2 : Program), appendNodes prog nodes = .ok prog2 →
        prog.counters ≤ 65535 → prog.counters + countRepeatsList nodes ≤ 65535) ∧
      (∀ (prog : Program) (e : String), appendNodes prog nodes = .error e →
        65535 < prog.counters + countRepeatsList nodes)) ∧
    (∀ (chs : List (List AstNode)), sizeOf chs ≤ n →
      (∀ (prog : Program) (index start : Nat) (jumps : List Nat) (prog2 : Program)
          (jumps2 : List Nat),
        appendChoicesA prog chs index start jumps = .ok (prog2, jumps2) →
        prog2.counters = prog.counters + countRepeatsChoices chs) ∧
      (∀ (prog : Program) (index start : Nat) (jumps : List Nat) (prog2 : Program)
          (jumps2 : List Nat),
        appendChoicesA prog chs index start jumps = .ok (prog2, jumps2) →
        prog.counters ≤ 65535 → prog.counters + countRepeatsChoices chs ≤ 65535) ∧
      (∀ (prog : Program) (index start : Nat) (jumps : List Nat) (e : String),
        appendChoicesA prog chs index start jumps = .error e →
        65535 < prog.counters + countRepeatsChoices chs)) := by
  intro n
  induction n using Nat.strong_induction_on with
  | _ n ih =>
  refine ⟨?_, ?_, ?_⟩
  · -- single nodes
    intro node hsz
    match node with
    | .alternatives choices =>
      have hszc : sizeOf choices < n := by
        have : sizeOf choices < sizeOf (AstNode.alternatives choices) := by
          simp <;> omega
        omega
      have ihC := (ih (sizeOf choices) hszc).2.2 choices (le_refl _)
      have hcnt : countRepeats (AstNode.alternatives choices) =
          countRepeatsChoices choices := by simp [countRepeats]
      rw [hcnt]
      refine ⟨?_, ?_, ?_⟩
      · intro prog prog2 happ
        simp only [appendProgram] at happ
        split at happ
        · exact absurd happ (by simp)
        case h_2 p2 j2 heq =>
          have h1 := ihC.1 _ _ _ _ _ _ heq
          simp only [Option.some.injEq, Except.ok.injEq] at happ
          subst happ
          simpa using h1
      · intro prog prog2 happ hc
        simp only [appendProgram] at happ
        split at happ
        · exact absurd happ (by simp)
        case h_2 p2 j2 heq =>
          have h1 := ihC.2.1 _ _ _ _ _ _ heq (by simpa using hc)
          simpa using h1
      · intro prog e happ
        simp only [appendProgram] at happ
        split at happ
        case h_1 e2 heq =>
          have h1 := ihC.2.2 _ _ _ _ _ heq
          simpa using h1
        · exact absurd happ (by simp)
    | .repeatN mn mx pat =>
      have hszp : sizeOf pat < n := by
        have : sizeOf pat < sizeOf (AstNode.repeatN mn mx pat) := by
          simp <;> omega
        omega
      have ihP := (ih (sizeOf pat) hszp).2.1 pat (le_refl _)
      have hcnt : countRepeats (AstNode.repeatN mn mx pat) =
          1 + countRepeatsList pat := by simp [countRepeats]
      rw [hcnt]
      refine ⟨?_, ?_, ?_⟩
      · intro prog prog2 happ
        simp only [appendProgram] at happ
        split at happ
        · exact absurd happ (by simp)
        case isFalse hlt =>
          split at happ
          case h_1 e heq => exact absurd happ (by simp)
          case h_2 out3 heq =>
            have h1 := ihP.1 _ _ heq
            have h1c : out3.counters = prog.counters + 1 + countRepeatsList pat := by
              simpa using h1
            split at happ <;>
              (simp only [Except.ok.injEq] at happ
               have hpc : prog2.counters = out3.counters := by rw [← happ]
               omega)
      · intro prog prog2 happ hc
        simp only [appendProgram] at happ
        split at happ
        · exact absurd happ (by simp)
        case isFalse hlt =>
          split at happ
          case h_1 e heq => exact absurd happ (by simp)
          case h_2 out3 heq =>
            have h1 := ihP.2.1 _ _ heq (by simp; omega)
            simp at h1
            omega
      · intro prog e happ
        simp only [appendProgram] at happ
        split at happ
        case isTrue hge =>
          omega
        case isFalse hlt =>
          split at happ
          case h_1 e2 heq =>
            have h1 := ihP.2.2 _ _ heq
            simp at h1
            omega
          case h_2 out3 heq =>
            split at happ <;> exact absurd happ (by simp)
    | .separator | .pfxNode _ | .rootDir | .curDir | .parentDir | .recurse
    | .literalString _ | .anyCharacter | .wildcard | .characters _ =>
      refine ⟨?_, ?_, ?_⟩ <;> intro prog
      · intro prog2 happ
        simp only [appendProgram, appendWildcardGadget] at happ
        simp only [Except.ok.injEq] at happ
        subst happ
        simp [countRepeats]
      · intro prog2 happ hc
        simp [countRepeats]
        omega
      · intro e happ
        simp only [appendProgram, appendWildcardGadget] at happ
        exact absurd happ (by simp)
  · -- node lists
    intro nodes hsz
    match nodes with
    | [] =>
      refine ⟨?_, ?_, ?_⟩ <;> intro prog
      · intro prog2 happ
        simp only [appendNodes, Except.ok.injEq] at happ
        subst happ
        simp [countRepeatsList]
      · intro prog2 happ hc
        simp [countRepeatsList]
        omega
      · intro e happ
        simp only [appendNodes] at happ
        exact absurd happ (by simp)
    | node :: rest =>
      have hszn : sizeOf node < n := by
        have : sizeOf node < sizeOf (node :: rest) := by simp <;> omega
        omega
      have hszr : sizeOf rest < n := by
        have : sizeOf rest < sizeOf (node :: rest) := by simp <;> omega
        omega
      have ihN := (ih (sizeOf node) hszn).1 node (le_refl _)
      have ihR := (ih (sizeOf rest) hszr).2.1 rest (le_refl _)
      have hcnt : countRepeatsList (node :: rest) =
          countRepeats node + countRepeatsList rest := by simp [countRepeatsList]
      rw [hcnt]
      refine ⟨?_, ?_, ?_⟩ <;> intro prog
      · intro prog2 happ
        simp only [appendNodes] at happ
        split at happ
        case h_1 e heq => exact absurd happ (by simp)
        case h_2 out1 heq =>
          have h1 := ihN.1 _ _ heq
          have h2 := ihR.1 _ _ happ
          omega
      · intro prog2 happ hc
        simp only [appendNodes] at happ
        split at happ
        case h_1 e heq => exact absurd happ (by simp)
        case h_2 out1 heq =>
          have h1 := ihN.1 _ _ heq
          have h1b := ihN.2.1 _ _ heq hc
          have h2 := ihR.2.1 _ _ happ (by omega)
          omega
      · intro e happ
        simp only [appendNodes] at happ
        split at happ
        case h_1 e2 heq =>
          have h1 := ihN.2.2 _ _ heq
          simp only [Except.error.injEq] at happ
          omega
        case h_2 out1 heq =>
          have h1 := ihN.1 _ _ heq
          have h2 := ihR.2.2 _ _ happ
          omega
  · -- choice lists
    intro chs hsz
    match chs with
    | [] =>
      refine ⟨?_, ?_, ?_⟩ <;> intro prog index start jumps
      · intro prog2 jumps2 happ
        simp only [appendChoicesA, Except.ok.injEq, Prod.mk.injEq] at happ
        rw [← happ.1]
        simp [countRepeatsChoices]
      · intro prog2 jumps2 happ hc
        simp [countRepeatsChoices]
        omega
      · intro e happ
        simp only [appendChoicesA] at happ
        exact absurd happ (by simp)
    | choice :: rest =>
      have hszc : sizeOf choice < n := by
        have : sizeOf choice < sizeOf (choice :: rest) := by simp <;> omega
        omega
      have hszr : sizeOf rest < n := by
        have : sizeOf rest < sizeOf (choice :: rest) := by simp <;> omega
        omega
      have ihC := (ih (sizeOf choice) hszc).2.1 choice (le_refl _)
      have ihR := (ih (sizeOf rest) hszr).2.2 rest (le_refl _)
      have hcnt : countRepeatsChoices (choice :: rest) =
          countRepeatsList choice + countRepeatsChoices rest := by
        simp [countRepeatsChoices]
      rw [hcnt]
      refine ⟨?_, ?_, ?_⟩ <;> intro prog index start jumps
      · intro prog2 jumps2 happ
        simp only [appendChoicesA] at happ
        split at happ
        case h_1 e heq => exact absurd happ (by simp)
        case h_2 out2 heq =>
          have h1 := ihC.1 _ _ heq
          have h2 := ihR.1 _ _ _ _ _ _ happ
          rw [apply_ite Program.counters] at h1
          simp at h1 h2
          omega
      · intro prog2 jumps2 happ hc
        simp only [appendChoicesA] at happ
        split at happ
        case h_1 e heq => exact absurd happ (by simp)
        case h_2 out2 heq =>
          have h1 := ihC.1 _ _ heq
          rw [apply_ite Program.counters] at h1
          simp at h1
          have h1b := ihC.2.1 _ _ heq
            (by rw [apply_ite Program.counters]; simp <;> omega)
          rw [apply_ite Program.counters] at h1b
          simp at h1b
          have h2 := ihR.2.1 _ _ _ _ _ _ happ (by simp <;> omega)
          simp at h2
          omega
      · intro e happ
        simp only [appendChoicesA] at happ
        split at happ
        case h_1 e2 heq =>
          have h1 := ihC.2.2 _ _ heq
          rw [apply_ite Program.counters] at h1
          simp at h1
          omega
        case h_2 out2 heq =>
          have h1 := ihC.1 _ _ heq
          rw [apply_ite Program.counters] at h1
          simp at h1
          have h2 := ihR.2.2 _ _ _ _ _ happ
          simp at h2
          omega

/-- C8: counter bound — compile returns an error if and only if the AST
contains more than u16::MAX (= 65535) Repeat nodes, nested ones included;
otherwise the returned Program's counters field equals the number of Repeat
nodes. append_repeat allocates one counter per Repeat node in source order
and fails exactly when entered with the budget already full. -/
theorem c8_counter_bound (pat : Pattern) :
    ((∃ e, compile pat = .error e) ↔ 65535 < countRepeatsList pat) ∧
    (∀ prog, compile pat = .ok prog → prog.counters = countRepeatsList pat) := by
  have hA := (appendCounters (sizeOf pat)).2.1 pat (le_refl _)
  constructor
  · constructor
    · rintro ⟨e, hce⟩
      unfold compile at hce
      split at hce
      case h_1 e2 heq =>
        have h1 := hA.2.2 _ _ heq
        simpa using h1
      case h_2 p heq => exact absurd hce (by simp)
    · intro hgt
      unfold compile
      split
      case h_1 e2 heq => exact ⟨_, rfl⟩
      case h_2 p heq =>
        have h1 := hA.2.1 _ _ heq (by simp <;> omega)
        simp at h1
        exact absurd hgt (by omega)
  · intro prog hok
    unfold compile at hok
    split at hok
    case h_1 e heq => exact absurd hok (by simp)
    case h_2 p heq =>
      have h1 := hA.1 _ _ heq
      simp at h1
      simp only [Except.ok.injEq] at hok
      subst hok
      simpa using h1

/-- C8 witness: the counters clause of c8_counter_bound instantiated on the
pattern `<a:0,1>`, whose compiled program has exactly one counter. -/
theorem c8_counter_bound_witness : progA01.counters = countRepeatsList patA01 :=
  (c8_counter_bound patA01).2 progA01 (by
    simp [compile, appendNodes, appendProgram, Program.here, patA01, progA01])

/-! ### C10: well-formedness of compiled programs -/

def insOk : Instruction → Nat → Bool
  | .jump t, L => decide (t ≤ L)
  | .alternative t, L => decide (t ≤ L)
  | .branchIfLessThan t _ _, L => decide (t ≤ L)
  | .complete, _ => false
  | _, _ => true

def insTargetsLe : Instruction → Nat → Prop
  | .jump t, L => t ≤ L
  | .alternative t, L => t ≤ L
  | .branchIfLessThan t _ _, L => t ≤ L
  | _, _ => True

theorem insOk_mono {ins : Instruction} {L L2 : Nat} (hL : L ≤ L2)
    (h : insOk ins L = true) : insOk ins L2 = true := by
  cases ins <;> simp_all [insOk] <;> omega

theorem insOk_spec {ins : Instruction} {L : Nat} (h : insOk ins L = true) :
    ins ≠ .complete ∧ insTargetsLe ins L := by
  cases ins <;> simp_all [insOk, insTargetsLe]

def inPatch (start index count p : Nat) : Prop :=
  if index = 0 then start ≤ p ∧ p + 1 < start + count
  else start + index ≤ p + 1 ∧ p + 1 < start + index + count

theorem foldlSet_length (v : Instruction) (js : List Nat) (l : List Instruction) :
    (js.foldl (fun ins off => ins.set off v) l).length = l.length := by
  induction js generalizing l with
  | nil => rfl
  | cons j rest ih =>
    simp only [List.foldl_cons]
    rw [ih, List.length_set]

theorem foldlSet_getq_notMem (v : Instruction) (js : List Nat) (l : List Instruction)
    (p : Nat) (hp : p ∉ js) :
    (js.foldl (fun ins off => ins.set off v) l)[p]? = l[p]? := by
  induction js generalizing l with
  | nil => rfl
  | cons j rest ih =>
    simp only [List.foldl_cons]
    rw [ih _ (fun hm => hp (List.mem_cons_of_mem _ hm)),
      List.getElem?_set_ne (fun hj => hp (by rw [← hj]; exact List.mem_cons_self j rest))]

theorem foldlSet_getq_mem (v : Instruction) (js : List Nat) (l : List Instruction)
    (p : Nat) (hp : p ∈ js) (hlt : p < l.length) :
    (js.foldl (fun ins off => ins.set off v) l)[p]? = some v := by
  induction js generalizing l with
  | nil => cases hp
  | cons j rest ih =>
    simp only [List.foldl_cons]
    by_cases hpr : p ∈ rest
    · exact ih _ hpr (by rw [List.length_set]; exact hlt)
    · have hpj : p = j := by
        rcases List.mem_cons.mp hp with h | h
        · exact h
        · exact absurd h hpr
      subst hpj
      rw [foldlSet_getq_notMem v rest _ p hpr, List.getElem?_set_self]
      simp [hlt]

/-- The shape shared by the ok results of appendProgram and appendNodes:
the output extends the input, the old instructions are unchanged, and every
new instruction avoids Complete and keeps its branch targets within the
output. -/
def PBnd (out out2 : Program) : Prop :=
  out.instructions.length ≤ out2.instructions.length ∧
  (∀ p, p < out.instructions.length → out2.instructions[p]? = out.instructions[p]?) ∧
  (∀ p ins, out2.instructions[p]? = some ins → out.instructions.length ≤ p →
    insOk ins out2.instructions.length = true)

theorem PBnd_of_eq {a b : Program} (h : b.instructions = a.instructions) : PBnd a b := by
  refine ⟨by rw [h], fun p _ => by rw [h], ?_⟩
  intro p ins hins hge
  have hlt := (List.getElem?_eq_some.mp hins).1
  rw [h] at hlt
  omega

theorem PBnd_trans {a b c : Program} (h1 : PBnd a b) (h2 : PBnd b c) : PBnd a c := by
  obtain ⟨l1, pre1, reg1⟩ := h1
  obtain ⟨l2, pre2, reg2⟩ := h2
  refine ⟨Nat.le_trans l1 l2, ?_, ?_⟩
  · intro p hp
    rw [pre2 p (Nat.lt_of_lt_of_le hp l1), pre1 p hp]
  · intro p ins hins hge
    by_cases hb : p < b.instructions.length
    · rw [pre2 p hb] at hins
      exact insOk_mono l2 (reg1 p ins hins hge)
    · exact reg2 p ins hins (Nat.le_of_not_lt hb)

theorem PBnd_of_append {out out2 : Program} (tail : List Instruction)
    (h2 : out2.instructions = out.instructions ++ tail)
    (htail : ∀ ins ∈ tail, insOk ins (out.instructions.length + tail.length) = true) :
    PBnd out out2 := by
  refine ⟨by rw [h2]; simp, ?_, ?_⟩
  · intro p hp
    rw [h2, List.getElem?_append, if_pos hp]
  · intro p ins hins hge
    rw [h2] at hins
    rw [h2, List.length_append]
    rw [List.getElem?_append_right hge] at hins
    exact htail ins (List.getElem?_mem hins)

theorem appendBounds : ∀ (n : Nat),
    (∀ (node : AstNode), sizeOf node ≤ n →
      ∀ (out out2 : Program), appendProgram out node = .ok out2 → PBnd out out2) ∧
    (∀ (nodes : List AstNode), sizeOf nodes ≤ n →
      ∀ (out out2 : Program), appendNodes out nodes = .ok out2 → PBnd out out2) ∧
    (∀ (chs : List (List AstNode)), sizeOf chs ≤ n →
      ∀ (out : Program) (index start : Nat) (jumps : List Nat) (out2 : Program)
        (jumps2 : List Nat),
        appendChoicesA out chs index start jumps = .ok (out2, jumps2) →
        start ≤ out.instructions.length →
        (index = 0 ∨ start + index ≤ out.instructions.length) →
        (∀ j ∈ jumps, start ≤ j) →
        (∀ p ins, out.instructions[p]? = some ins → start ≤ p →
          insOk ins out.instructions.length = true ∨
          (p ∈ jumps ∧ ins = .jump PLACEHOLDER) ∨ inPatch start index chs.length p) →
        out.instructions.length ≤ out2.instructions.length ∧
        (∀ p, p < start → out2.instructions[p]? = out.instructions[p]?) ∧
        (∀ j ∈ jumps2, start ≤ j) ∧
        (∀ p ins, out2.instructions[p]? = some ins → start ≤ p →
          insOk ins out2.instructions.length = true ∨
          (p ∈ jumps2 ∧ ins = .jump PLACEHOLDER))) := by
  intro n
  induction n using Nat.strong_induction_on with
  | _ n ih =>
  refine ⟨?_, ?_, ?_⟩
  · -- single nodes
    intro node hsz
    match node with
    | .separator | .pfxNode _ | .rootDir | .curDir | .parentDir
    | .literalString _ | .anyCharacter | .characters _ =>
      intro out out2 happ
      simp only [appendProgram, Except.ok.injEq] at happ
      refine PBnd_of_append _ (by rw [← happ]) ?_
      intro ins hins
      simp at hins
      subst hins
      rfl
    | .wildcard =>
      intro out out2 happ
      simp only [appendProgram, appendWildcardGadget, Except.ok.injEq] at happ
      refine PBnd_of_append _ (by rw [← happ]) ?_
      intro ins hins
      simp at hins
      rcases hins with h | h | h | h <;> subst h <;> simp [insOk, Program.here] <;> omega
    | .recurse =>
      intro out out2 happ
      simp only [appendProgram, Except.ok.injEq] at happ
      refine PBnd_of_append _ (by rw [← happ]) ?_
      intro ins hins
      simp at hins
      rcases hins with h | h | h | h | h <;> subst h <;> simp [insOk, Program.here] <;> omega
    | .alternatives choices =>
      have hszc : sizeOf choices < n := by
        have : sizeOf choices < sizeOf (AstNode.alternatives choices) := by simp <;> omega
        omega
      intro out out2 happ
      simp only [appendProgram] at happ
      split at happ
      next e heq => exact absurd happ (by simp)
      next p2 j2 heq =>
        have hC := (ih (sizeOf choices) hszc).2.2 choices (le_refl _) _ _ _ _ _ _ heq
          (by simp) (Or.inl rfl) (by simp)
          (by
            intro p ins hins hge
            have hins2 : (out.instructions ++ List.replicate (choices.length - 1)
                (Instruction.alternative PLACEHOLDER))[p]? = some ins := hins
            rw [List.getElem?_append_right hge] at hins2
            have hinsPH : ins = .alternative PLACEHOLDER :=
              List.eq_of_mem_replicate (List.getElem?_mem hins2)
            have hlt : p - out.instructions.length < choices.length - 1 := by
              have := (List.getElem?_eq_some.mp hins2).1
              simpa using this
            refine Or.inr (Or.inr ?_)
            simp only [inPatch]
            split <;> omega)
        obtain ⟨hClen, hCpre, hCj, hCreg⟩ := hC
        simp only [List.length_append, List.length_replicate] at hClen
        simp only [Except.ok.injEq] at happ
        subst happ
        refine ⟨?_, ?_, ?_⟩
        · show out.instructions.length ≤
            (j2.foldl (fun ins off => ins.set off (Instruction.jump p2.here))
              p2.instructions).length
          rw [foldlSet_length]
          omega
        · intro p hp
          show (j2.foldl (fun ins off => ins.set off (Instruction.jump p2.here))
            p2.instructions)[p]? = out.instructions[p]?
          rw [foldlSet_getq_notMem _ _ _ _ (fun hm => absurd (hCj p hm) (by omega))]
          rw [hCpre p (by omega)]
          show (out.instructions ++ List.replicate (choices.length - 1)
            (Instruction.alternative PLACEHOLDER))[p]? = out.instructions[p]?
          rw [List.getElem?_append, if_pos hp]
        · intro p ins hins hge
          have hins2 : (j2.foldl (fun ins off => ins.set off (Instruction.jump p2.here))
              p2.instructions)[p]? = some ins := hins
          have hplen : p < p2.instructions.length := by
            have := (List.getElem?_eq_some.mp hins2).1
            rwa [foldlSet_length] at this
          by_cases hmem : p ∈ j2
          · have hj := foldlSet_getq_mem (Instruction.jump p2.here) j2 p2.instructions p
              hmem hplen
            rw [hj] at hins2
            have hinsj : ins = Instruction.jump p2.here := by
              simp at hins2
              exact hins2.symm
            show insOk ins (j2.foldl (fun ins off => ins.set off (Instruction.jump p2.here))
              p2.instructions).length = true
            rw [foldlSet_length, hinsj]
            simp [insOk, Program.here]
          · have hx : p2.instructions[p]? = some ins := by
              rw [foldlSet_getq_notMem _ _ _ _ hmem] at hins2
              exact hins2
            rcases hCreg p ins hx (by omega) with h | h
            · show insOk ins (j2.foldl (fun ins off => ins.set off
                (Instruction.jump p2.here)) p2.instructions).length = true
              rw [foldlSet_length]
              exact h
            · exact absurd h.1 hmem
    | .repeatN mn mx pat =>
      have hszp : sizeOf pat < n := by
        have : sizeOf pat < sizeOf (AstNode.repeatN mn mx pat) := by simp <;> omega
        omega
      intro out out2 happ
      simp only [appendProgram] at happ
      split at happ
      · exact absurd happ (by simp)
      case isFalse hlt =>
        split at happ
        next e heq => exact absurd happ (by simp)
        next out3 heq =>
          have ihP := (ih (sizeOf pat) hszp).2.1 pat (le_refl _) _ _ heq
          have s2 : PBnd out out3 :=
            PBnd_trans (PBnd_of_append [.increment out.counters] (by simp)
              (by intro ins hins; simp at hins; subst hins; rfl)) ihP
          have hl2 : out.instructions.length + 1 ≤ out3.instructions.length := by
            have := ihP.1
            simpa using this
          split at happ
          case isTrue hmx =>
            simp only [Except.ok.injEq] at happ
            subst happ
            have s3 : PBnd out3 { out3 with instructions := out3.instructions ++
                [Instruction.branchIfLessThan
                  ({ out with counters := out.counters + 1 } : Program).here
                  out.counters mn] } := by
              refine PBnd_of_append _ rfl ?_
              intro ins hins
              simp at hins
              subst hins
              simp [insOk, Program.here]
              omega
            refine PBnd_trans (PBnd_trans s2 s3) (PBnd_of_append _ rfl ?_)
            intro ins hins
            simp at hins
            rcases hins with h | h | h <;> subst h <;> simp [insOk, Program.here] <;> omega
          case isFalse hmx =>
            simp only [Except.ok.injEq] at happ
            subst happ
            refine PBnd_trans s2 (PBnd_of_append
              [.branchIfLessThan ({ out with counters := out.counters + 1 } : Program).here
                out.counters mn] rfl ?_)
            intro ins hins
            simp at hins
            subst hins
            simp [insOk, Program.here]
            omega
  · -- node lists
    intro nodes hsz
    match nodes with
    | [] =>
      intro out out2 happ
      simp only [appendNodes, Except.ok.injEq] at happ
      exact PBnd_of_eq (by rw [happ])
    | node :: rest =>
      have hszn : sizeOf node < n := by
        have : sizeOf node < sizeOf (node :: rest) := by simp <;> omega
        omega
      have hszr : sizeOf rest < n := by
        have : sizeOf rest < sizeOf (node :: rest) := by simp <;> omega
        omega
      intro out out2 happ
      simp only [appendNodes] at happ
      split at happ
      case h_1 e heq => exact absurd happ (by simp)
      case h_2 out1 heq =>
        exact PBnd_trans ((ih (sizeOf node) hszn).1 node (le_refl _) _ _ heq)
          ((ih (sizeOf rest) hszr).2.1 rest (le_refl _) _ _ happ)
  · -- choice lists
    intro chs hsz
    match chs with
    | [] =>
      intro out index start jumps out2 jumps2 happ hstart hindex hjumps hcont
      simp only [appendChoicesA, Except.ok.injEq, Prod.mk.injEq] at happ
      obtain ⟨h1, h2⟩ := happ
      subst h1
      subst h2
      refine ⟨le_refl _, fun p _ => rfl, hjumps, ?_⟩
      intro p ins hins hge
      rcases hcont p ins hins hge with h | h | h
      · exact Or.inl h
      · exact Or.inr h
      · exfalso
        simp only [inPatch, List.length_nil] at h
        split at h <;> omega
    | choice :: rest =>
      have hszc : sizeOf choice < n := by
        have : sizeOf choice < sizeOf (choice :: rest) := by simp <;> omega
        omega
      have hszr : sizeOf rest < n := by
        have : sizeOf rest < sizeOf (choice :: rest) := by simp <;> omega
        omega
      intro out index start jumps out2 jumps2 happ hstart hindex hjumps hcont
      simp only [appendChoicesA] at happ
      by_cases hidx0 : index = 0
      · subst hidx0
        rw [if_neg (by omega : ¬((0:Nat) > 0))] at happ
        split at happ
        next e heq => exact absurd happ (by simp)
        next out2x heq =>
          obtain ⟨hBlen, hBpre, hBreg⟩ :=
            (ih (sizeOf choice) hszc).2.1 choice (le_refl _) _ _ heq
          have hR := (ih (sizeOf rest) hszr).2.2 rest (le_refl _) _ _ _ _ _ _ happ
            (by simp; omega) (Or.inr (by simp; omega))
            (by
              intro j hj
              rcases List.mem_append.mp hj with h | h
              · exact hjumps j h
              · simp at h
                subst h
                show start ≤ out2x.here
                simp [Program.here]
                omega)
            (by
              intro p ins hins hge
              have hins2 :
                  (out2x.instructions ++ [Instruction.jump PLACEHOLDER])[p]? = some ins := hins
              by_cases hp2 : p < out2x.instructions.length
              · have hx : out2x.instructions[p]? = some ins := by
                  rw [List.getElem?_append, if_pos hp2] at hins2
                  exact hins2
                by_cases hpL : p < out.instructions.length
                · have hout : out.instructions[p]? = some ins := by
                    rw [hBpre p hpL] at hx
                    exact hx
                  rcases hcont p ins hout hge with h | h | h
                  · exact Or.inl (insOk_mono (by simp; omega) h)
                  · exact Or.inr (Or.inl ⟨List.mem_append.mpr (Or.inl h.1), h.2⟩)
                  · refine Or.inr (Or.inr ?_)
                    simp only [inPatch, List.length_cons] at h ⊢
                    split at h <;> split <;> omega
                · exact Or.inl (insOk_mono (by simp) (hBreg p ins hx (by omega)))
              · have hplen : p < out2x.instructions.length + 1 := by
                  have := (List.getElem?_eq_some.mp hins2).1
                  simpa using this
                have hpe : p = out2x.instructions.length := by omega
                have hiph : ins = .jump PLACEHOLDER := by
                  rw [List.getElem?_append_right (by omega)] at hins2
                  rw [hpe] at hins2
                  simp at hins2
                  exact hins2.symm
                exact Or.inr (Or.inl ⟨List.mem_append.mpr (Or.inr (by
                  simp [Program.here, hpe])), hiph⟩))
          obtain ⟨hRlen, hRpre, hRj, hRreg⟩ := hR
          simp only [List.length_append, List.length_cons] at hRlen
          refine ⟨by simp at hRlen; omega, ?_, hRj, ?_⟩
          · intro p hp
            rw [hRpre p hp]
            show (out2x.instructions ++ [Instruction.jump PLACEHOLDER])[p]? =
              out.instructions[p]?
            rw [List.getElem?_append, if_pos (by omega)]
            exact hBpre p (by omega)
          · intro p ins hins hge
            exact hRreg p ins hins hge
      · rw [if_pos (by omega : index > 0)] at happ
        split at happ
        next e heq => exact absurd happ (by simp)
        next out2x heq =>
          obtain ⟨hBlen, hBpre, hBreg⟩ :=
            (ih (sizeOf choice) hszc).2.1 choice (le_refl _) _ _ heq
          simp only [List.length_set] at hBlen hBpre
          have hidxle : start + index ≤ out.instructions.length := by
            rcases hindex with h | h
            · exact absurd h hidx0
            · exact h
          have hR := (ih (sizeOf rest) hszr).2.2 rest (le_refl _) _ _ _ _ _ _ happ
            (by simp; omega) (Or.inr (by simp; omega))
            (by
              intro j hj
              rcases List.mem_append.mp hj with h | h
              · exact hjumps j h
              · simp at h
                subst h
                show start ≤ out2x.here
                simp [Program.here]
                omega)
            (by
              intro p ins hins hge
              have hins2 :
                  (out2x.instructions ++ [Instruction.jump PLACEHOLDER])[p]? = some ins := hins
              by_cases hp2 : p < out2x.instructions.length
              · have hx : out2x.instructions[p]? = some ins := by
                  rw [List.getElem?_append, if_pos hp2] at hins2
                  exact hins2
                by_cases hpL : p < out.instructions.length
                · have hx2 : (out.instructions.set (start + (index - 1))
                      (Instruction.alternative out.here))[p]? = some ins := by
                    rw [hBpre p hpL] at hx
                    exact hx
                  by_cases hpp : start + (index - 1) = p
                  · have hinsa : ins = Instruction.alternative out.here := by
                      rw [← hpp] at hx2
                      rw [List.getElem?_set_self (by omega)] at hx2
                      simp at hx2
                      exact hx2.symm
                    refine Or.inl ?_
                    rw [hinsa]
                    simp [insOk, Program.here]
                    omega
                  · have hout : out.instructions[p]? = some ins := by
                      rw [List.getElem?_set_ne hpp] at hx2
                      exact hx2
                    rcases hcont p ins hout hge with h | h | h
                    · exact Or.inl (insOk_mono (by simp; omega) h)
                    · exact Or.inr (Or.inl ⟨List.mem_append.mpr (Or.inl h.1), h.2⟩)
                    · refine Or.inr (Or.inr ?_)
                      simp only [inPatch, List.length_cons] at h ⊢
                      split at h <;> split <;> omega
                · exact Or.inl (insOk_mono (by simp) (hBreg p ins hx (by simp; omega)))
              · have hplen : p < out2x.instructions.length + 1 := by
                  have := (List.getElem?_eq_some.mp hins2).1
                  simpa using this
                have hpe : p = out2x.instructions.length := by omega
                have hiph : ins = .jump PLACEHOLDER := by
                  rw [List.getElem?_append_right (by omega)] at hins2
                  rw [hpe] at hins2
                  simp at hins2
                  exact hins2.symm
                exact Or.inr (Or.inl ⟨List.mem_append.mpr (Or.inr (by
                  simp [Program.here, hpe])), hiph⟩))
          obtain ⟨hRlen, hRpre, hRj, hRreg⟩ := hR
          refine ⟨by simp at hRlen; omega, ?_, hRj, ?_⟩
          · intro p hp
            rw [hRpre p hp]
            show (out2x.instructions ++ [Instruction.jump PLACEHOLDER])[p]? =
              out.instructions[p]?
            rw [List.getElem?_append, if_pos (by omega)]
            rw [hBpre p (by omega)]
            exact List.getElem?_set_ne (by omega)
          · intro p ins hins hge
            exact hRreg p ins hins hge

/-- The configuration invariant behind in-bounds instruction fetch: the live
program counter and every saved alternative's program counter are in range. -/
def WfCfg (prog : Program) (c : Cfg) : Prop :=
  c.st.pc < prog.instructions.length ∧
  ∀ s ∈ c.alts, s.pc < prog.instructions.length

theorem nextStringM_pc (st : ProgState) : (nextStringM st).2.pc = st.pc := by
  obtain ⟨pc, rest, cur, fresh, counters⟩ := st
  cases cur
  · cases rest with
    | nil => rfl
    | cons a r => cases a <;> rfl
  · rfl

theorem tryAlternative_wf {prog : Program} {c c2 : Cfg}
    (h : tryAlternative c = .cont c2)
    (halts : ∀ s ∈ c.alts, s.pc < prog.instructions.length) : WfCfg prog c2 := by
  unfold tryAlternative at h
  cases hca : c.alts with
  | nil =>
    rw [hca] at h
    exact absurd h (by simp)
  | cons a rest =>
    rw [hca] at h
    simp only [StepRes.cont.injEq] at h
    subst h
    rw [hca] at halts
    exact ⟨halts a (by simp), fun s hs => halts s (by simp [hs])⟩

theorem endOfInput_wf {prog : Program} {c c2 : Cfg}
    (h : endOfInput c = .cont c2)
    (halts : ∀ s ∈ c.alts, s.pc < prog.instructions.length) : WfCfg prog c2 := by
  unfold endOfInput at h
  exact tryAlternative_wf h halts

theorem completeI_wf {prog : Program} {c c2 : Cfg}
    (h : completeI c = .cont c2)
    (halts : ∀ s ∈ c.alts, s.pc < prog.instructions.length) : WfCfg prog c2 := by
  unfold completeI at h
  split at h
  · exact tryAlternative_wf h halts
  · exact tryAlternative_wf h halts

theorem nextIns_wf {prog : Program} {c c2 : Cfg}
    (h : nextIns c = .cont c2)
    (hpc : c.st.pc + 1 < prog.instructions.length)
    (halts : ∀ s ∈ c.alts, s.pc < prog.instructions.length) : WfCfg prog c2 := by
  unfold nextIns at h
  simp only [StepRes.cont.injEq] at h
  subst h
  exact ⟨hpc, halts⟩

theorem stepM_wf {prog : Program} {body : List Instruction}
    (hprog : prog.instructions = body ++ [.complete])
    (hins : ∀ (p : Nat) (ins : Instruction), body[p]? = some ins →
      insOk ins body.length = true)
    {c c2 : Cfg} (hwf : WfCfg prog c) (hstep : stepM prog c = .cont c2) :
    WfCfg prog c2 := by
  obtain ⟨hpc, halts⟩ := hwf
  have hlen : prog.instructions.length = body.length + 1 := by
    rw [hprog]
    simp
  by_cases hN : c.st.pc < body.length
  · obtain ⟨ins, hinsv⟩ : ∃ i, body[c.st.pc]? = some i :=
      ⟨body[c.st.pc], List.getElem?_eq_getElem hN⟩
    have hfetch2 : prog.instructions[c.st.pc]? = some ins := by
      rw [hprog, List.getElem?_append, if_pos hN]
      exact hinsv
    have hok := hins _ _ hinsv
    simp only [stepM, hfetch2] at hstep
    split at hstep
    · -- separator
      split at hstep
      · split at hstep
        · exact endOfInput_wf hstep halts
        · exact nextIns_wf hstep (by show c.st.pc + 1 < prog.instructions.length; omega) halts
      · split at hstep
        · exact nextIns_wf hstep (by show c.st.pc + 1 < prog.instructions.length; omega) halts
        · exact tryAlternative_wf hstep halts
    · -- pfxI
      split at hstep
      · split at hstep
        · split at hstep
          · exact nextIns_wf hstep (by show c.st.pc + 1 < prog.instructions.length; omega) halts
          · exact tryAlternative_wf hstep halts
        · exact tryAlternative_wf hstep halts
        · exact endOfInput_wf hstep halts
      · exact tryAlternative_wf hstep halts
    · -- rootDir
      split at hstep
      · split at hstep
        · exact nextIns_wf hstep (by show c.st.pc + 1 < prog.instructions.length; omega) halts
        · exact tryAlternative_wf hstep halts
        · exact endOfInput_wf hstep halts
      · exact tryAlternative_wf hstep halts
    · -- curDir
      split at hstep
      · split at hstep
        · exact nextIns_wf hstep (by show c.st.pc + 1 < prog.instructions.length; omega) halts
        · exact tryAlternative_wf hstep halts
        · exact endOfInput_wf hstep halts
      · exact tryAlternative_wf hstep halts
    · -- parentDir
      split at hstep
      · split at hstep
        · exact nextIns_wf hstep (by show c.st.pc + 1 < prog.instructions.length; omega) halts
        · exact tryAlternative_wf hstep halts
        · exact endOfInput_wf hstep halts
      · exact tryAlternative_wf hstep halts
    · -- literalString
      rename_i bytes
      rcases hns : nextStringM c.st with ⟨ns, st1⟩
      have hpc1 : st1.pc = c.st.pc := by
        have h := nextStringM_pc c.st
        rw [hns] at h
        exact h
      rw [hns] at hstep
      cases ns
      · simp only [] at hstep
        split at hstep
        · exact nextIns_wf hstep (by show st1.pc + 1 < prog.instructions.length; omega) halts
        · exact tryAlternative_wf hstep halts
      · simp only [] at hstep
        exact tryAlternative_wf hstep halts
      · simp only [] at hstep
        exact endOfInput_wf hstep halts
    · -- anyCharacter
      rcases hns : nextStringM c.st with ⟨ns, st1⟩
      have hpc1 : st1.pc = c.st.pc := by
        have h := nextStringM_pc c.st
        rw [hns] at h
        exact h
      rw [hns] at hstep
      cases ns
      · simp only [] at hstep
        split at hstep
        · exact nextIns_wf hstep (by show st1.pc + 1 < prog.instructions.length; omega) halts
        · exact tryAlternative_wf hstep halts
      · simp only [] at hstep
        exact tryAlternative_wf hstep halts
      · simp only [] at hstep
        exact endOfInput_wf hstep halts
    · -- anyString
      rcases hns : nextStringM c.st with ⟨ns, st1⟩
      have hpc1 : st1.pc = c.st.pc := by
        have h := nextStringM_pc c.st
        rw [hns] at h
        exact h
      rw [hns] at hstep
      cases ns
      · simp only [] at hstep
        exact nextIns_wf hstep (by show st1.pc + 1 < prog.instructions.length; omega) halts
      · simp only [] at hstep
        exact tryAlternative_wf hstep halts
      · simp only [] at hstep
        exact endOfInput_wf hstep halts
    · -- characters
      exact absurd hstep (by simp)
    · -- jump
      rename_i t
      simp only [StepRes.cont.injEq] at hstep
      subst hstep
      refine ⟨?_, halts⟩
      show t < prog.instructions.length
      simp [insOk] at hok
      omega
    · -- alternative
      rename_i t
      refine nextIns_wf hstep (by show c.st.pc + 1 < prog.instructions.length; omega) ?_
      intro s hs
      rcases List.mem_cons.mp hs with h | h
      · subst h
        show t < prog.instructions.length
        simp [insOk] at hok
        omega
      · exact halts s h
    · -- increment
      split at hstep
      · exact nextIns_wf hstep (by show c.st.pc + 1 < prog.instructions.length; omega) halts
      · exact absurd hstep (by simp)
    · -- branchIfLessThan
      rename_i t cid v
      split at hstep
      · split at hstep
        · simp only [StepRes.cont.injEq] at hstep
          subst hstep
          refine ⟨?_, halts⟩
          show t < prog.instructions.length
          simp [insOk] at hok
          omega
        · exact nextIns_wf hstep (by show c.st.pc + 1 < prog.instructions.length; omega) halts
      · exact absurd hstep (by simp)
    · -- complete in the body: impossible
      simp [insOk] at hok
  · have hpcN : c.st.pc = body.length := by omega
    have hfetch : prog.instructions[c.st.pc]? = some Instruction.complete := by
      rw [hprog, hpcN, List.getElem?_append_right (le_refl _)]
      simp
    simp only [stepM, hfetch] at hstep
    exact completeI_wf hstep halts

/-- C10: well-formedness of compiled programs — for every Pattern, the
Program returned by compile ends in Complete (and Complete occurs nowhere
else), every Jump, Alternative and BranchIfLessThan target is at most the
index of that final Complete instruction, no PLACEHOLDER offset remains
(stated under the usize-representability bound length ≤ PLACEHOLDER, which
always holds in the Rust original), and consequently the VM's instruction
fetch at the program counter is always in bounds: the initial configuration
satisfies WfCfg, WfCfg makes the fetch succeed, and every advance step from a
WfCfg configuration yields a WfCfg configuration. -/
theorem c10_compiled_wellformed (pat : Pattern) (prog : Program)
    (hc : compile pat = .ok prog) :
    prog.instructions.getLast? = some .complete ∧
    (∀ (p : Nat) (ins : Instruction), prog.instructions[p]? = some ins →
      insTargetsLe ins (prog.instructions.length - 1) ∧
      (ins = .complete → p = prog.instructions.length - 1) ∧
      (prog.instructions.length ≤ PLACEHOLDER →
        ins ≠ .jump PLACEHOLDER ∧ ins ≠ .alternative PLACEHOLDER ∧
        ∀ cid v, ins ≠ .branchIfLessThan PLACEHOLDER cid v)) ∧
    (∀ comps : List Component,
      WfCfg prog ⟨initState comps prog.counters, [], ⟨false, false⟩⟩) ∧
    (∀ c : Cfg, WfCfg prog c → (prog.instructions[c.st.pc]?).isSome = true) ∧
    (∀ c c2 : Cfg, WfCfg prog c → stepM prog c = .cont c2 → WfCfg prog c2) := by
  unfold compile at hc
  split at hc
  next e heq => exact absurd hc (by simp)
  next body0 heq =>
    simp only [Except.ok.injEq] at hc
    have hprog : prog.instructions = body0.instructions ++ [.complete] := by
      rw [← hc]
    have hB := (appendBounds (sizeOf pat)).2.1 pat (le_refl _) ⟨[], 0, none⟩ body0 heq
    have hreg : ∀ (p : Nat) (ins : Instruction), body0.instructions[p]? = some ins →
        insOk ins body0.instructions.length = true := by
      intro p ins h
      exact hB.2.2 p ins h (Nat.zero_le p)
    have hPH : PLACEHOLDER = 18446744073709551615 := by norm_num [PLACEHOLDER]
    have hlenP : prog.instructions.length = body0.instructions.length + 1 := by
      rw [hprog]
      simp
    refine ⟨?_, ?_, ?_, ?_, ?_⟩
    · rw [hprog]
      simp [List.getLast?_concat]
    · intro p ins hins
      rw [hprog] at hins
      by_cases hp : p < body0.instructions.length
      · rw [List.getElem?_append, if_pos hp] at hins
        obtain ⟨hnc, htg⟩ := insOk_spec (hreg p ins hins)
        refine ⟨?_, fun hcomp => absurd hcomp hnc, ?_⟩
        · rw [hlenP]
          simpa using htg
        · intro hple
          rw [hlenP, hPH] at hple
          refine ⟨?_, ?_, ?_⟩
          · intro hjp
            rw [hjp] at htg
            simp [insTargetsLe, hPH] at htg
            omega
          · intro hjp
            rw [hjp] at htg
            simp [insTargetsLe, hPH] at htg
            omega
          · intro cid v hjp
            rw [hjp] at htg
            simp [insTargetsLe, hPH] at htg
            omega
      · have hplt : p < body0.instructions.length + 1 := by
          have := (List.getElem?_eq_some.mp hins).1
          simpa using this
        have hpe : p = body0.instructions.length := by omega
        have hinsc : ins = Instruction.complete := by
          rw [List.getElem?_append_right (by omega), hpe] at hins
          simp at hins
          exact hins.symm
        refine ⟨?_, fun _ => by omega, ?_⟩
        · rw [hinsc]
          simp [insTargetsLe]
        · intro hple
          rw [hinsc]
          exact ⟨by simp, by simp, fun cid v => by simp⟩
    · intro comps
      refine ⟨?_, ?_⟩
      · show 0 < prog.instructions.length
        omega
      · intro s hs
        exact absurd hs (by simp)
    · intro c hwf
      rw [List.getElem?_eq_getElem hwf.1]
      rfl
    · intro c c2 hwf hstep
      exact stepM_wf hprog hreg hwf hstep



/-- C10 witness: the last-instruction clause of c10_compiled_wellformed
instantiated on the compiled program of the pattern `<a:0,1>`. -/
theorem c10_compiled_wellformed_witness :
    progA01.instructions.getLast? = some Instruction.complete :=
  (c10_compiled_wellformed patA01 progA01 (by
    simp [compile, appendNodes, appendProgram, Program.here, patA01, progA01])).1

/-! ### C5 development: prefix monotonicity by lockstep simulation -/

/-- Shorter-input simulation relation on live VM states: the program counter,
current string, freshness flag and counters agree, and the shorter run's
remaining components are a strict prefix of the longer run's. -/
def SRel (sp sq : ProgState) : Prop :=
  sq.pc = sp.pc ∧ sq.cur = sp.cur ∧ sq.fresh = sp.fresh ∧ sq.counters = sp.counters ∧
  ∃ m, sq.rest = sp.rest.take m ∧ m < sp.rest.length

/-- The simulation relation on whole configurations: live states related and
alternative stacks pointwise related (the result bits are unconstrained). -/
def SRelCfg (cp cq : Cfg) : Prop :=
  SRel cp.st cq.st ∧ List.Forall₂ SRel cp.alts cq.alts

theorem hasString_congr {sp sq : ProgState} (h : sq.cur = sp.cur) :
    hasString sq = hasString sp := by
  unfold hasString
  rw [h]

theorem res_of_nextIns (x c2 : Cfg) (h : nextIns x = .cont c2) : c2.res = x.res := by
  simp only [nextIns, StepRes.cont.injEq] at h
  rw [← h]

theorem res_of_tryAlt_cont (x c2 : Cfg) (h : tryAlternative x = .cont c2) :
    c2.res = x.res := by
  unfold tryAlternative at h
  rcases hxa : x.alts with _ | ⟨a, rest⟩ <;> rw [hxa] at h
  · exact absurd h (by simp)
  · simp only [StepRes.cont.injEq] at h
    rw [← h]

theorem res_of_tryAlt_stop (x : Cfg) (r : MatchResult) (h : tryAlternative x = .stop r) :
    r = x.res := by
  unfold tryAlternative at h
  rcases hxa : x.alts with _ | ⟨a, rest⟩ <;> rw [hxa] at h
  · simp only [StepRes.stop.injEq] at h
    rw [← h]
  · exact absurd h (by simp)

theorem res_of_endOfInput_cont (x c2 : Cfg) (h : endOfInput x = .cont c2) :
    c2.res = { x.res with validAsPfx := true } := by
  unfold endOfInput at h
  exact res_of_tryAlt_cont _ _ h

theorem res_of_endOfInput_stop (x : Cfg) (r : MatchResult) (h : endOfInput x = .stop r) :
    r = { x.res with validAsPfx := true } := by
  unfold endOfInput at h
  exact res_of_tryAlt_stop _ _ h

theorem res_of_completeI_cont (x c2 : Cfg) (h : completeI x = .cont c2) :
    c2.res = x.res ∨ c2.res = { x.res with validAsPfx := true } ∨
    (x.st.rest = [] ∧ c2.res = { x.res with validAsMatch := true }) := by
  unfold completeI at h
  split at h
  next hc => exact Or.inr (Or.inr ⟨hc.2, res_of_tryAlt_cont _ _ h⟩)
  next hc => exact Or.inl (res_of_tryAlt_cont _ _ h)

theorem res_of_completeI_stop (x : Cfg) (r : MatchResult) (h : completeI x = .stop r) :
    r = x.res ∨ r = { x.res with validAsPfx := true } ∨
    (x.st.rest = [] ∧ r = { x.res with validAsMatch := true }) := by
  unfold completeI at h
  split at h
  next hc => exact Or.inr (Or.inr ⟨hc.2, res_of_tryAlt_stop _ _ h⟩)
  next hc => exact Or.inl (res_of_tryAlt_stop _ _ h)

/-- One advance never clears a result bit, and it can set valid_as_complete_match
only when the component iterator is exhausted. -/
theorem stepM_res (prog : Program) (c : Cfg) :
    (∀ c2, stepM prog c = .cont c2 →
      c2.res = c.res ∨ c2.res = { c.res with validAsPfx := true } ∨
      (c.st.rest = [] ∧ c2.res = { c.res with validAsMatch := true })) ∧
    (∀ r, stepM prog c = .stop r →
      r = c.res ∨ r = { c.res with validAsPfx := true } ∨
      (c.st.rest = [] ∧ r = { c.res with validAsMatch := true })) := by
  constructor
  all_goals intro x h
  all_goals
    simp only [stepM] at h
    split at h
    · exact absurd h (by simp)
    · split at h <;>
        repeat' split at h
      all_goals
        first
          | (simp at h; done)
          | (simp [nextIns] at h; done)
          | (have h1 := res_of_nextIns _ _ h
             exact Or.inl h1)
          | (have h1 := res_of_tryAlt_cont _ _ h
             exact Or.inl h1)
          | (have h1 := res_of_tryAlt_stop _ _ h
             exact Or.inl h1)
          | (have h1 := res_of_endOfInput_cont _ _ h
             exact Or.inr (Or.inl h1))
          | (have h1 := res_of_endOfInput_stop _ _ h
             exact Or.inr (Or.inl h1))
          | (have h1 := res_of_completeI_cont _ _ h
             rcases h1 with h1 | h1 | ⟨hre, h1⟩
             exacts [Or.inl h1, Or.inr (Or.inl h1), Or.inr (Or.inr ⟨hre, h1⟩)])
          | (have h1 := res_of_completeI_stop _ _ h
             rcases h1 with h1 | h1 | ⟨hre, h1⟩
             exacts [Or.inl h1, Or.inr (Or.inl h1), Or.inr (Or.inr ⟨hre, h1⟩)])
          | (simp only [StepRes.cont.injEq] at h
             rw [← h]
             exact Or.inl rfl)

theorem stepM_match_cont (prog : Program) (c c2 : Cfg) (hne : c.st.rest ≠ [])
    (h : stepM prog c = .cont c2) : c2.res.validAsMatch = c.res.validAsMatch := by
  rcases (stepM_res prog c).1 c2 h with h1 | h1 | ⟨h1, _⟩
  · rw [h1]
  · rw [h1]
  · exact absurd h1 hne

theorem stepM_match_stop (prog : Program) (c : Cfg) (r : MatchResult) (hne : c.st.rest ≠ [])
    (h : stepM prog c = .stop r) : r.validAsMatch = c.res.validAsMatch := by
  rcases (stepM_res prog c).2 r h with h1 | h1 | ⟨h1, _⟩
  · rw [h1]
  · rw [h1]
  · exact absurd h1 hne

theorem stepM_pfx_cont (prog : Program) (c c2 : Cfg) (h : stepM prog c = .cont c2)
    (hp : c.res.validAsPfx = true) : c2.res.validAsPfx = true := by
  rcases (stepM_res prog c).1 c2 h with h1 | h1 | ⟨_, h1⟩ <;> rw [h1] <;> exact hp

theorem stepM_pfx_stop (prog : Program) (c : Cfg) (r : MatchResult)
    (h : stepM prog c = .stop r) (hp : c.res.validAsPfx = true) : r.validAsPfx = true := by
  rcases (stepM_res prog c).2 r h with h1 | h1 | ⟨_, h1⟩ <;> rw [h1] <;> exact hp

/-- The prefix bit is monotone along the matcher loop: once set it ends up in
any MatchResult the loop returns. -/
theorem runLoop_pfx (prog : Program) : ∀ (f : Nat) (c : Cfg) (r : MatchResult),
    c.res.validAsPfx = true → runLoop prog f c = .ok r → r.validAsPfx = true := by
  intro f
  induction f with
  | zero =>
    intro c r hp h
    unfold runLoop at h
    split at h
    · simp only [MOut.ok.injEq] at h
      rw [← h]
      exact hp
    · exact absurd h (by simp)
  | succ f2 ihf =>
    intro c r hp h
    unfold runLoop at h
    split at h
    · simp only [MOut.ok.injEq] at h
      rw [← h]
      exact hp
    · split at h
      next heq => exact absurd h (by simp)
      next r2 heq =>
        simp only [MOut.ok.injEq] at h
        rw [← h]
        exact stepM_pfx_stop prog c r2 heq hp
      next c1 heq =>
        exact ihf c1 r (stepM_pfx_cont prog c c1 heq hp) h

/-- Backtracking in lockstep: related stacks pop to related configurations,
with both result records carried unchanged. -/
theorem tryAltSim (cpx cqx cp2 : Cfg) (halts : List.Forall₂ SRel cpx.alts cqx.alts)
    (hp : tryAlternative cpx = .cont cp2) :
    ∃ cq2, tryAlternative cqx = .cont cq2 ∧ SRelCfg cp2 cq2 ∧ cq2.res = cqx.res := by
  unfold tryAlternative at hp ⊢
  rcases hpa : cpx.alts with _ | ⟨ap, aps⟩
  · rw [hpa] at hp
    exact absurd hp (by simp)
  · rw [hpa] at hp
    rcases hqa : cqx.alts with _ | ⟨aq, aqs⟩
    · rw [hpa, hqa] at halts
      cases halts
    · rw [hpa, hqa] at halts
      cases halts with
      | cons hab htail =>
        simp only [StepRes.cont.injEq] at hp
        refine ⟨_, rfl, ?_, rfl⟩
        rw [← hp]
        exact ⟨hab, htail⟩

/-- Hitting the end of the shorter input always records prefix validity,
whether the stack pops or the loop stops. -/
theorem endSim (cqx : Cfg) :
    (∃ cq2, endOfInput cqx = .cont cq2 ∧ cq2.res.validAsPfx = true) ∨
    (∃ rq, endOfInput cqx = .stop rq ∧ rq.validAsPfx = true) := by
  unfold endOfInput tryAlternative
  rcases hqa : cqx.alts with _ | ⟨aq, aqs⟩
  · exact Or.inr ⟨_, rfl, rfl⟩
  · exact Or.inl ⟨_, rfl, rfl⟩

theorem tryAlternative_st (c : Cfg) (st2 : ProgState) :
    tryAlternative { c with st := st2 } = tryAlternative c := rfl

/-- The lockstep simulation step: while the shorter run still relates to the
longer one, one advance of the longer run is mirrored by one advance of the
shorter run, which either stays in lockstep without newly recording prefix
validity, or hits its end of input and records prefix validity. -/
theorem stepSim (prog : Program) (cp cq cp2 : Cfg) (hrel : SRelCfg cp cq)
    (hp : stepM prog cp = .cont cp2) :
    (∃ cq2, stepM prog cq = .cont cq2 ∧ SRelCfg cp2 cq2 ∧
      cq2.res.validAsPfx = cq.res.validAsPfx) ∨
    (∃ cq2, stepM prog cq = .cont cq2 ∧ cq2.res.validAsPfx = true) ∨
    (∃ rq, stepM prog cq = .stop rq ∧ rq.validAsPfx = true) := by
  obtain ⟨⟨hpc, hcur, hfresh, hcnt, m, hrest, hmlt⟩, halts⟩ := hrel
  simp only [stepM] at hp
  cases hfet : prog.instructions[cp.st.pc]? with
  | none =>
    simp only [hfet] at hp
    exact absurd hp (by simp)
  | some ins =>
    simp only [hfet] at hp
    have hfetq : prog.instructions[cq.st.pc]? = some ins := by rw [hpc, hfet]
    split at hp
    · -- separator
      simp only [stepM, hfetq]
      rw [hasString_congr hcur, hfresh]
      by_cases hhs : hasString cp.st = true
      · rw [if_neg (by simp [hhs])] at hp
        rw [if_neg (by simp [hhs])]
        by_cases hfr : cp.st.fresh = true
        · rw [if_pos hfr] at hp
          rw [if_pos hfr]
          simp only [nextIns, StepRes.cont.injEq] at hp
          refine Or.inl ⟨_, rfl, ?_, rfl⟩
          rw [← hp]
          exact ⟨⟨by rw [hpc], hcur, hfresh, hcnt, m, hrest, hmlt⟩, halts⟩
        · rw [if_neg hfr] at hp
          rw [if_neg hfr]
          obtain ⟨cq2, hq2, hrel2, hres2⟩ := tryAltSim cp cq cp2 halts hp
          exact Or.inl ⟨cq2, hq2, hrel2, by rw [hres2]⟩
      · rw [if_pos hhs] at hp
        rw [if_pos hhs]
        rcases hr : cp.st.rest with _ | ⟨comp, rtail⟩
        · rw [hr] at hmlt
          simp at hmlt
        · rw [hr] at hp hmlt
          rw [if_neg (by simp)] at hp
          by_cases hm0 : m = 0
          · have hrq : cq.st.rest = [] := by rw [hrest, hm0]; rfl
            rw [hrq]
            rw [if_pos (by simp)]
            exact Or.inr (endSim _)
          · obtain ⟨m1, rfl⟩ : ∃ m1, m = m1 + 1 := ⟨m - 1, by omega⟩
            have hrq : cq.st.rest = comp :: rtail.take m1 := by
              rw [hrest, hr, List.take_succ_cons]
            rw [hrq]
            rw [if_neg (by simp)]
            simp only [nextIns, StepRes.cont.injEq] at hp
            refine Or.inl ⟨_, rfl, ?_, rfl⟩
            rw [← hp]
            refine ⟨⟨by rw [hpc], rfl, rfl, hcnt, m1 + 1, ?_, ?_⟩, halts⟩
            · rw [List.take_succ_cons]
            · simp at hmlt ⊢
              omega
    · -- pfxI
      rename_i s
      simp only [stepM, hfetq]
      rw [hasString_congr hcur]
      by_cases hhs : hasString cp.st = true
      · rw [if_neg (by simp [hhs])] at hp
        rw [if_neg (by simp [hhs])]
        obtain ⟨cq2, hq2, hrel2, hres2⟩ := tryAltSim cp cq cp2 halts hp
        exact Or.inl ⟨cq2, hq2, hrel2, by rw [hres2]⟩
      · rw [if_pos hhs] at hp
        rw [if_pos hhs]
        rcases hr : cp.st.rest with _ | ⟨comp, rtail⟩
        · rw [hr] at hmlt
          simp at hmlt
        · rw [hr] at hp hmlt
          by_cases hm0 : m = 0
          · have hrq : cq.st.rest = [] := by rw [hrest, hm0]; rfl
            rw [hrq]
            exact Or.inr (endSim _)
          · obtain ⟨m1, rfl⟩ : ∃ m1, m = m1 + 1 := ⟨m - 1, by omega⟩
            have hrq : cq.st.rest = comp :: rtail.take m1 := by
              rw [hrest, hr, List.take_succ_cons]
            have hm1 : m1 < rtail.length := by
              simp at hmlt
              omega
            rw [hrq]
            cases comp with
            | pfx pp =>
              simp only [] at hp ⊢
              by_cases hps : pp = s
              · rw [if_pos hps] at hp
                rw [if_pos hps]
                simp only [nextIns, StepRes.cont.injEq] at hp
                refine Or.inl ⟨_, rfl, ?_, rfl⟩
                rw [← hp]
                exact ⟨⟨by rw [hpc], hcur, hfresh, hcnt, m1, rfl, hm1⟩, halts⟩
              · rw [if_neg hps] at hp
                rw [if_neg hps]
                rw [tryAlternative_st]
                obtain ⟨cq2, hq2, hrel2, hres2⟩ := tryAltSim _ cq _ halts hp
                exact Or.inl ⟨cq2, hq2, hrel2, by rw [hres2]⟩
            | rootDir =>
              simp only [] at hp ⊢
              rw [tryAlternative_st]
              obtain ⟨cq2, hq2, hrel2, hres2⟩ := tryAltSim _ cq _ halts hp
              exact Or.inl ⟨cq2, hq2, hrel2, by rw [hres2]⟩
            | curDir =>
              simp only [] at hp ⊢
              rw [tryAlternative_st]
              obtain ⟨cq2, hq2, hrel2, hres2⟩ := tryAltSim _ cq _ halts hp
              exact Or.inl ⟨cq2, hq2, hrel2, by rw [hres2]⟩
            | parentDir =>
              simp only [] at hp ⊢
              rw [tryAlternative_st]
              obtain ⟨cq2, hq2, hrel2, hres2⟩ := tryAltSim _ cq _ halts hp
              exact Or.inl ⟨cq2, hq2, hrel2, by rw [hres2]⟩
            | normal bb =>
              simp only [] at hp ⊢
              rw [tryAlternative_st]
              obtain ⟨cq2, hq2, hrel2, hres2⟩ := tryAltSim _ cq _ halts hp
              exact Or.inl ⟨cq2, hq2, hrel2, by rw [hres2]⟩
    · -- rootDir
      simp only [stepM, hfetq]
      rw [hasString_congr hcur]
      by_cases hhs : hasString cp.st = true
      · rw [if_neg (by simp [hhs])] at hp
        rw [if_neg (by simp [hhs])]
        obtain ⟨cq2, hq2, hrel2, hres2⟩ := tryAltSim cp cq cp2 halts hp
        exact Or.inl ⟨cq2, hq2, hrel2, by rw [hres2]⟩
      · rw [if_pos hhs] at hp
        rw [if_pos hhs]
        rcases hr : cp.st.rest with _ | ⟨comp, rtail⟩
        · rw [hr] at hmlt
          simp at hmlt
        · rw [hr] at hp hmlt
          by_cases hm0 : m = 0
          · have hrq : cq.st.rest = [] := by rw [hrest, hm0]; rfl
            rw [hrq]
            exact Or.inr (endSim _)
          · obtain ⟨m1, rfl⟩ : ∃ m1, m = m1 + 1 := ⟨m - 1, by omega⟩
            have hrq : cq.st.rest = comp :: rtail.take m1 := by
              rw [hrest, hr, List.take_succ_cons]
            have hm1 : m1 < rtail.length := by
              simp at hmlt
              omega
            rw [hrq]
            cases comp with
            | rootDir =>
              simp only [] at hp ⊢
              simp only [nextIns, StepRes.cont.injEq] at hp
              refine Or.inl ⟨_, rfl, ?_, rfl⟩
              rw [← hp]
              exact ⟨⟨by rw [hpc], hcur, hfresh, hcnt, m1, rfl, hm1⟩, halts⟩
            | pfx pp =>
              simp only [] at hp ⊢
              rw [tryAlternative_st]
              obtain ⟨cq2, hq2, hrel2, hres2⟩ := tryAltSim _ cq _ halts hp
              exact Or.inl ⟨cq2, hq2, hrel2, by rw [hres2]⟩
            | curDir =>
              simp only [] at hp ⊢
              rw [tryAlternative_st]
              obtain ⟨cq2, hq2, hrel2, hres2⟩ := tryAltSim _ cq _ halts hp
              exact Or.inl ⟨cq2, hq2, hrel2, by rw [hres2]⟩
            | parentDir =>
              simp only [] at hp ⊢
              rw [tryAlternative_st]
              obtain ⟨cq2, hq2, hrel2, hres2⟩ := tryAltSim _ cq _ halts hp
              exact Or.inl ⟨cq2, hq2, hrel2, by rw [hres2]⟩
            | normal bb =>
              simp only [] at hp ⊢
              rw [tryAlternative_st]
              obtain ⟨cq2, hq2, hrel2, hres2⟩ := tryAltSim _ cq _ halts hp
              exact Or.inl ⟨cq2, hq2, hrel2, by rw [hres2]⟩
    · -- curDir
      simp only [stepM, hfetq]
      rw [hasString_congr hcur]
      by_cases hhs : hasString cp.st = true
      · rw [if_neg (by simp [hhs])] at hp
        rw [if_neg (by simp [hhs])]
        obtain ⟨cq2, hq2, hrel2, hres2⟩ := tryAltSim cp cq cp2 halts hp
        exact Or.inl ⟨cq2, hq2, hrel2, by rw [hres2]⟩
      · rw [if_pos hhs] at hp
        rw [if_pos hhs]
        rcases hr : cp.st.rest with _ | ⟨comp, rtail⟩
        · rw [hr] at hmlt
          simp at hmlt
        · rw [hr] at hp hmlt
          by_cases hm0 : m = 0
          · have hrq : cq.st.rest = [] := by rw [hrest, hm0]; rfl
            rw [hrq]
            exact Or.inr (endSim _)
          · obtain ⟨m1, rfl⟩ : ∃ m1, m = m1 + 1 := ⟨m - 1, by omega⟩
            have hrq : cq.st.rest = comp :: rtail.take m1 := by
              rw [hrest, hr, List.take_succ_cons]
            have hm1 : m1 < rtail.length := by
              simp at hmlt
              omega
            rw [hrq]
            cases comp with
            | curDir =>
              simp only [] at hp ⊢
              simp only [nextIns, StepRes.cont.injEq] at hp
              refine Or.inl ⟨_, rfl, ?_, rfl⟩
              rw [← hp]
              exact ⟨⟨by rw [hpc], hcur, hfresh, hcnt, m1, rfl, hm1⟩, halts⟩
            | pfx pp =>
              simp only [] at hp ⊢
              rw [tryAlternative_st]
              obtain ⟨cq2, hq2, hrel2, hres2⟩ := tryAltSim _ cq _ halts hp
              exact Or.inl ⟨cq2, hq2, hrel2, by rw [hres2]⟩
            | rootDir =>
              simp only [] at hp ⊢
              rw [tryAlternative_st]
              obtain ⟨cq2, hq2, hrel2, hres2⟩ := tryAltSim _ cq _ halts hp
              exact Or.inl ⟨cq2, hq2, hrel2, by rw [hres2]⟩
            | parentDir =>
              simp only [] at hp ⊢
              rw [tryAlternative_st]
              obtain ⟨cq2, hq2, hrel2, hres2⟩ := tryAltSim _ cq _ halts hp
              exact Or.inl ⟨cq2, hq2, hrel2, by rw [hres2]⟩
            | normal bb =>
              simp only [] at hp ⊢
              rw [tryAlternative_st]
              obtain ⟨cq2, hq2, hrel2, hres2⟩ := tryAltSim _ cq _ halts hp
              exact Or.inl ⟨cq2, hq2, hrel2, by rw [hres2]⟩
    · -- parentDir
      simp only [stepM, hfetq]
      rw [hasString_congr hcur]
      by_cases hhs : hasString cp.st = true
      · rw [if_neg (by simp [hhs])] at hp
        rw [if_neg (by simp [hhs])]
        obtain ⟨cq2, hq2, hrel2, hres2⟩ := tryAltSim cp cq cp2 halts hp
        exact Or.inl ⟨cq2, hq2, hrel2, by rw [hres2]⟩
      · rw [if_pos hhs] at hp
        rw [if_pos hhs]
        rcases hr : cp.st.rest with _ | ⟨comp, rtail⟩
        · rw [hr] at hmlt
          simp at hmlt
        · rw [hr] at hp hmlt
          by_cases hm0 : m = 0
          · have hrq : cq.st.rest = [] := by rw [hrest, hm0]; rfl
            rw [hrq]
            exact Or.inr (endSim _)
          · obtain ⟨m1, rfl⟩ : ∃ m1, m = m1 + 1 := ⟨m - 1, by omega⟩
            have hrq : cq.st.rest = comp :: rtail.take m1 := by
              rw [hrest, hr, List.take_succ_cons]
            have hm1 : m1 < rtail.length := by
              simp at hmlt
              omega
            rw [hrq]
            cases comp with
            | parentDir =>
              simp only [] at hp ⊢
              simp only [nextIns, StepRes.cont.injEq] at hp
              refine Or.inl ⟨_, rfl, ?_, rfl⟩
              rw [← hp]
              exact ⟨⟨by rw [hpc], hcur, hfresh, hcnt, m1, rfl, hm1⟩, halts⟩
            | pfx pp =>
              simp only [] at hp ⊢
              rw [tryAlternative_st]
              obtain ⟨cq2, hq2, hrel2, hres2⟩ := tryAltSim _ cq _ halts hp
              exact Or.inl ⟨cq2, hq2, hrel2, by rw [hres2]⟩
            | rootDir =>
              simp only [] at hp ⊢
              rw [tryAlternative_st]
              obtain ⟨cq2, hq2, hrel2, hres2⟩ := tryAltSim _ cq _ halts hp
              exact Or.inl ⟨cq2, hq2, hrel2, by rw [hres2]⟩
            | curDir =>
              simp only [] at hp ⊢
              rw [tryAlternative_st]
              obtain ⟨cq2, hq2, hrel2, hres2⟩ := tryAltSim _ cq _ halts hp
              exact Or.inl ⟨cq2, hq2, hrel2, by rw [hres2]⟩
            | normal bb =>
              simp only [] at hp ⊢
              rw [tryAlternative_st]
              obtain ⟨cq2, hq2, hrel2, hres2⟩ := tryAltSim _ cq _ halts hp
              exact Or.inl ⟨cq2, hq2, hrel2, by rw [hres2]⟩
    · -- literalString
      rename_i bytes
      simp only [stepM, hfetq]
      cases hc : cp.st.cur with
      | some scur =>
        have hnsp : nextStringM cp.st = (.normal, cp.st) := by
          unfold nextStringM
          rw [hc]
        have hnsq : nextStringM cq.st = (.normal, cq.st) := by
          unfold nextStringM
          rw [hcur, hc]
        simp only [hnsp] at hp
        simp only [hnsq]
        rw [hcur]
        by_cases hsw : listStartsWith (cp.st.cur.getD []) bytes = true
        · rw [if_pos hsw] at hp
          rw [if_pos hsw]
          simp only [nextIns, StepRes.cont.injEq] at hp
          refine Or.inl ⟨_, rfl, ?_, rfl⟩
          rw [← hp]
          exact ⟨⟨by rw [hpc], rfl, rfl, hcnt, m, hrest, hmlt⟩, halts⟩
        · rw [if_neg hsw] at hp
          rw [if_neg hsw]
          rw [tryAlternative_st]
          obtain ⟨cq2, hq2, hrel2, hres2⟩ := tryAltSim _ cq _ halts hp
          exact Or.inl ⟨cq2, hq2, hrel2, by rw [hres2]⟩
      | none =>
        rcases hr : cp.st.rest with _ | ⟨comp, rtail⟩
        · rw [hr] at hmlt
          simp at hmlt
        · rw [hr] at hmlt
          by_cases hm0 : m = 0
          · have hrq : cq.st.rest = [] := by rw [hrest, hm0]; rfl
            have hnsq : nextStringM cq.st = (.endOfInput, cq.st) := by
              unfold nextStringM
              rw [hcur, hc, hrq]
            simp only [hnsq]
            exact Or.inr (endSim _)
          · obtain ⟨m1, rfl⟩ : ∃ m1, m = m1 + 1 := ⟨m - 1, by omega⟩
            have hrq : cq.st.rest = comp :: rtail.take m1 := by
              rw [hrest, hr, List.take_succ_cons]
            have hm1 : m1 < rtail.length := by
              simp at hmlt
              omega
            cases comp with
            | normal bb =>
              have hnsp : nextStringM cp.st = (.normal,
                  { cp.st with rest := rtail, cur := some bb, fresh := true }) := by
                unfold nextStringM
                rw [hc, hr]
              have hnsq : nextStringM cq.st = (.normal,
                  { cq.st with rest := rtail.take m1, cur := some bb, fresh := true }) := by
                unfold nextStringM
                rw [hcur, hc, hrq]
              simp only [hnsp, Option.getD] at hp
              simp only [hnsq, Option.getD]
              by_cases hsw : listStartsWith bb bytes = true
              · rw [if_pos hsw] at hp
                rw [if_pos hsw]
                simp only [nextIns, StepRes.cont.injEq] at hp
                refine Or.inl ⟨_, rfl, ?_, rfl⟩
                rw [← hp]
                exact ⟨⟨by rw [hpc], rfl, rfl, hcnt, m1, rfl, hm1⟩, halts⟩
              · rw [if_neg hsw] at hp
                rw [if_neg hsw]
                rw [tryAlternative_st]
                obtain ⟨cq2, hq2, hrel2, hres2⟩ := tryAltSim _ cq _ halts hp
                exact Or.inl ⟨cq2, hq2, hrel2, by rw [hres2]⟩
            | pfx pp =>
              have hnsp : nextStringM cp.st = (.notNormal, cp.st) := by
                unfold nextStringM
                rw [hc, hr]
              have hnsq : nextStringM cq.st = (.notNormal, cq.st) := by
                unfold nextStringM
                rw [hcur, hc, hrq]
              simp only [hnsp] at hp
              simp only [hnsq]
              rw [tryAlternative_st]
              obtain ⟨cq2, hq2, hrel2, hres2⟩ := tryAltSim _ cq _ halts hp
              exact Or.inl ⟨cq2, hq2, hrel2, by rw [hres2]⟩
            | rootDir =>
              have hnsp : nextStringM cp.st = (.notNormal, cp.st) := by
                unfold nextStringM
                rw [hc, hr]
              have hnsq : nextStringM cq.st = (.notNormal, cq.st) := by
                unfold nextStringM
                rw [hcur, hc, hrq]
              simp only [hnsp] at hp
              simp only [hnsq]
              rw [tryAlternative_st]
              obtain ⟨cq2, hq2, hrel2, hres2⟩ := tryAltSim _ cq _ halts hp
              exact Or.inl ⟨cq2, hq2, hrel2, by rw [hres2]⟩
            | curDir =>
              have hnsp : nextStringM cp.st = (.notNormal, cp.st) := by
                unfold nextStringM
                rw [hc, hr]
              have hnsq : nextStringM cq.st = (.notNormal, cq.st) := by
                unfold nextStringM
                rw [hcur, hc, hrq]
              simp only [hnsp] at hp
              simp only [hnsq]
              rw [tryAlternative_st]
              obtain ⟨cq2, hq2, hrel2, hres2⟩ := tryAltSim _ cq _ halts hp
              exact Or.inl ⟨cq2, hq2, hrel2, by rw [hres2]⟩
            | parentDir =>
              have hnsp : nextStringM cp.st = (.notNormal, cp.st) := by
                unfold nextStringM
                rw [hc, hr]
              have hnsq : nextStringM cq.st = (.notNormal, cq.st) := by
                unfold nextStringM
                rw [hcur, hc, hrq]
              simp only [hnsp] at hp
              simp only [hnsq]
              rw [tryAlternative_st]
              obtain ⟨cq2, hq2, hrel2, hres2⟩ := tryAltSim _ cq _ halts hp
              exact Or.inl ⟨cq2, hq2, hrel2, by rw [hres2]⟩
    · -- anyCharacter
      simp only [stepM, hfetq]
      cases hc : cp.st.cur with
      | some scur =>
        have hnsp : nextStringM cp.st = (.normal, cp.st) := by
          unfold nextStringM
          rw [hc]
        have hnsq : nextStringM cq.st = (.normal, cq.st) := by
          unfold nextStringM
          rw [hcur, hc]
        simp only [hnsp] at hp
        simp only [hnsq]
        rw [hcur]
        rcases hlf : lengthOfFirstChar (cp.st.cur.getD []) with _ | n
        · simp only [hlf] at hp
          rw [tryAlternative_st]
          obtain ⟨cq2, hq2, hrel2, hres2⟩ := tryAltSim _ cq _ halts hp
          exact Or.inl ⟨cq2, hq2, hrel2, by rw [hres2]⟩
        · simp only [hlf] at hp
          simp only [nextIns, StepRes.cont.injEq] at hp
          refine Or.inl ⟨_, rfl, ?_, rfl⟩
          rw [← hp]
          exact ⟨⟨by rw [hpc], rfl, rfl, hcnt, m, hrest, hmlt⟩, halts⟩
      | none =>
        rcases hr : cp.st.rest with _ | ⟨comp, rtail⟩
        · rw [hr] at hmlt
          simp at hmlt
        · rw [hr] at hmlt
          by_cases hm0 : m = 0
          · have hrq : cq.st.rest = [] := by rw [hrest, hm0]; rfl
            have hnsq : nextStringM cq.st = (.endOfInput, cq.st) := by
              unfold nextStringM
              rw [hcur, hc, hrq]
            simp only [hnsq]
            exact Or.inr (endSim _)
          · obtain ⟨m1, rfl⟩ : ∃ m1, m = m1 + 1 := ⟨m - 1, by omega⟩
            have hrq : cq.st.rest = comp :: rtail.take m1 := by
              rw [hrest, hr, List.take_succ_cons]
            have hm1 : m1 < rtail.length := by
              simp at hmlt
              omega
            cases comp with
            | normal bb =>
              have hnsp : nextStringM cp.st = (.normal,
                  { cp.st with rest := rtail, cur := some bb, fresh := true }) := by
                unfold nextStringM
                rw [hc, hr]
              have hnsq : nextStringM cq.st = (.normal,
                  { cq.st with rest := rtail.take m1, cur := some bb, fresh := true }) := by
                unfold nextStringM
                rw [hcur, hc, hrq]
              simp only [hnsp, Option.getD] at hp
              simp only [hnsq, Option.getD]
              rcases hlf : lengthOfFirstChar bb with _ | n
              · simp only [hlf] at hp
                rw [tryAlternative_st]
                obtain ⟨cq2, hq2, hrel2, hres2⟩ := tryAltSim _ cq _ halts hp
                exact Or.inl ⟨cq2, hq2, hrel2, by rw [hres2]⟩
              · simp only [hlf] at hp
                simp only [nextIns, StepRes.cont.injEq] at hp
                refine Or.inl ⟨_, rfl, ?_, rfl⟩
                rw [← hp]
                exact ⟨⟨by rw [hpc], rfl, rfl, hcnt, m1, rfl, hm1⟩, halts⟩
            | pfx pp =>
              have hnsp : nextStringM cp.st = (.notNormal, cp.st) := by
                unfold nextStringM
                rw [hc, hr]
              have hnsq : nextStringM cq.st = (.notNormal, cq.st) := by
                unfold nextStringM
                rw [hcur, hc, hrq]
              simp only [hnsp] at hp
              simp only [hnsq]
              rw [tryAlternative_st]
              obtain ⟨cq2, hq2, hrel2, hres2⟩ := tryAltSim _ cq _ halts hp
              exact Or.inl ⟨cq2, hq2, hrel2, by rw [hres2]⟩
            | rootDir =>
              have hnsp : nextStringM cp.st = (.notNormal, cp.st) := by
                unfold nextStringM
                rw [hc, hr]
              have hnsq : nextStringM cq.st = (.notNormal, cq.st) := by
                unfold nextStringM
                rw [hcur, hc, hrq]
              simp only [hnsp] at hp
              simp only [hnsq]
              rw [tryAlternative_st]
              obtain ⟨cq2, hq2, hrel2, hres2⟩ := tryAltSim _ cq _ halts hp
              exact Or.inl ⟨cq2, hq2, hrel2, by rw [hres2]⟩
            | curDir =>
              have hnsp : nextStringM cp.st = (.notNormal, cp.st) := by
                unfold nextStringM
                rw [hc, hr]
              have hnsq : nextStringM cq.st = (.notNormal, cq.st) := by
                unfold nextStringM
                rw [hcur, hc, hrq]
              simp only [hnsp] at hp
              simp only [hnsq]
              rw [tryAlternative_st]
              obtain ⟨cq2, hq2, hrel2, hres2⟩ := tryAltSim _ cq _ halts hp
              exact Or.inl ⟨cq2, hq2, hrel2, by rw [hres2]⟩
            | parentDir =>
              have hnsp : nextStringM cp.st = (.notNormal, cp.st) := by
                unfold nextStringM
                rw [hc, hr]
              have hnsq : nextStringM cq.st = (.notNormal, cq.st) := by
                unfold nextStringM
                rw [hcur, hc, hrq]
              simp only [hnsp] at hp
              simp only [hnsq]
              rw [tryAlternative_st]
              obtain ⟨cq2, hq2, hrel2, hres2⟩ := tryAltSim _ cq _ halts hp
              exact Or.inl ⟨cq2, hq2, hrel2, by rw [hres2]⟩
    · -- anyString
      simp only [stepM, hfetq]
      cases hc : cp.st.cur with
      | some scur =>
        have hnsp : nextStringM cp.st = (.normal, cp.st) := by
          unfold nextStringM
          rw [hc]
        have hnsq : nextStringM cq.st = (.normal, cq.st) := by
          unfold nextStringM
          rw [hcur, hc]
        simp only [hnsp] at hp
        simp only [hnsq]
        simp only [nextIns, StepRes.cont.injEq] at hp
        refine Or.inl ⟨_, rfl, ?_, rfl⟩
        rw [← hp]
        exact ⟨⟨by rw [hpc], rfl, rfl, hcnt, m, hrest, hmlt⟩, halts⟩
      | none =>
        rcases hr : cp.st.rest with _ | ⟨comp, rtail⟩
        · rw [hr] at hmlt
          simp at hmlt
        · rw [hr] at hmlt
          by_cases hm0 : m = 0
          · have hrq : cq.st.rest = [] := by rw [hrest, hm0]; rfl
            have hnsq : nextStringM cq.st = (.endOfInput, cq.st) := by
              unfold nextStringM
              rw [hcur, hc, hrq]
            simp only [hnsq]
            exact Or.inr (endSim _)
          · obtain ⟨m1, rfl⟩ : ∃ m1, m = m1 + 1 := ⟨m - 1, by omega⟩
            have hrq : cq.st.rest = comp :: rtail.take m1 := by
              rw [hrest, hr, List.take_succ_cons]
            have hm1 : m1 < rtail.length := by
              simp at hmlt
              omega
            cases comp with
            | normal bb =>
              have hnsp : nextStringM cp.st = (.normal,
                  { cp.st with rest := rtail, cur := some bb, fresh := true }) := by
                unfold nextStringM
                rw [hc, hr]
              have hnsq : nextStringM cq.st = (.normal,
                  { cq.st with rest := rtail.take m1, cur := some bb, fresh := true }) := by
                unfold nextStringM
                rw [hcur, hc, hrq]
              simp only [hnsp] at hp
              simp only [hnsq]
              simp only [nextIns, StepRes.cont.injEq] at hp
              refine Or.inl ⟨_, rfl, ?_, rfl⟩
              rw [← hp]
              exact ⟨⟨by rw [hpc], rfl, rfl, hcnt, m1, rfl, hm1⟩, halts⟩
            | pfx pp =>
              have hnsp : nextStringM cp.st = (.notNormal, cp.st) := by
                unfold nextStringM
                rw [hc, hr]
              have hnsq : nextStringM cq.st = (.notNormal, cq.st) := by
                unfold nextStringM
                rw [hcur, hc, hrq]
              simp only [hnsp] at hp
              simp only [hnsq]
              rw [tryAlternative_st]
              obtain ⟨cq2, hq2, hrel2, hres2⟩ := tryAltSim _ cq _ halts hp
              exact Or.inl ⟨cq2, hq2, hrel2, by rw [hres2]⟩
            | rootDir =>
              have hnsp : nextStringM cp.st = (.notNormal, cp.st) := by
                unfold nextStringM
                rw [hc, hr]
              have hnsq : nextStringM cq.st = (.notNormal, cq.st) := by
                unfold nextStringM
                rw [hcur, hc, hrq]
              simp only [hnsp] at hp
              simp only [hnsq]
              rw [tryAlternative_st]
              obtain ⟨cq2, hq2, hrel2, hres2⟩ := tryAltSim _ cq _ halts hp
              exact Or.inl ⟨cq2, hq2, hrel2, by rw [hres2]⟩
            | curDir =>
              have hnsp : nextStringM cp.st = (.notNormal, cp.st) := by
                unfold nextStringM
                rw [hc, hr]
              have hnsq : nextStringM cq.st = (.notNormal, cq.st) := by
                unfold nextStringM
                rw [hcur, hc, hrq]
              simp only [hnsp] at hp
              simp only [hnsq]
              rw [tryAlternative_st]
              obtain ⟨cq2, hq2, hrel2, hres2⟩ := tryAltSim _ cq _ halts hp
              exact Or.inl ⟨cq2, hq2, hrel2, by rw [hres2]⟩
            | parentDir =>
              have hnsp : nextStringM cp.st = (.notNormal, cp.st) := by
                unfold nextStringM
                rw [hc, hr]
              have hnsq : nextStringM cq.st = (.notNormal, cq.st) := by
                unfold nextStringM
                rw [hcur, hc, hrq]
              simp only [hnsp] at hp
              simp only [hnsq]
              rw [tryAlternative_st]
              obtain ⟨cq2, hq2, hrel2, hres2⟩ := tryAltSim _ cq _ halts hp
              exact Or.inl ⟨cq2, hq2, hrel2, by rw [hres2]⟩
    · -- characters
      exact absurd hp (by simp)
    · -- jump
      simp only [stepM, hfetq]
      simp only [StepRes.cont.injEq] at hp
      refine Or.inl ⟨_, rfl, ?_, rfl⟩
      rw [← hp]
      exact ⟨⟨rfl, hcur, hfresh, hcnt, m, hrest, hmlt⟩, halts⟩
    · -- alternative
      simp only [stepM, hfetq]
      simp only [nextIns, StepRes.cont.injEq] at hp
      refine Or.inl ⟨_, rfl, ?_, rfl⟩
      rw [← hp]
      refine ⟨⟨by rw [hpc], hcur, hfresh, hcnt, m, hrest, hmlt⟩, ?_⟩
      exact List.Forall₂.cons ⟨rfl, hcur, hfresh, hcnt, m, hrest, hmlt⟩ halts
    · -- increment
      rename_i cid
      simp only [stepM, hfetq]
      rw [hcnt]
      cases hlk : cp.st.counters[cid]? with
      | none =>
        simp only [hlk] at hp
        exact absurd hp (by simp)
      | some v =>
        simp only [hlk] at hp
        simp only [nextIns, StepRes.cont.injEq] at hp
        refine Or.inl ⟨_, rfl, ?_, rfl⟩
        rw [← hp]
        refine ⟨⟨by rw [hpc], hcur, hfresh, rfl, m, hrest, hmlt⟩, halts⟩
    · -- branchIfLessThan
      rename_i t cid v
      simp only [stepM, hfetq]
      rw [hcnt]
      cases hlk : cp.st.counters[cid]? with
      | none =>
        simp only [hlk] at hp
        exact absurd hp (by simp)
      | some cv =>
        simp only [hlk] at hp
        simp only []
        by_cases hlt : cv < v
        · rw [if_pos hlt] at hp
          rw [if_pos hlt]
          simp only [StepRes.cont.injEq] at hp
          refine Or.inl ⟨_, rfl, ?_, rfl⟩
          rw [← hp]
          exact ⟨⟨rfl, hcur, hfresh, rfl, m, hrest, hmlt⟩, halts⟩
        · rw [if_neg hlt] at hp
          rw [if_neg hlt]
          simp only [nextIns, StepRes.cont.injEq] at hp
          refine Or.inl ⟨_, rfl, ?_, rfl⟩
          rw [← hp]
          exact ⟨⟨by rw [hpc], hcur, hfresh, hcnt, m, hrest, hmlt⟩, halts⟩
    · -- complete
      simp only [stepM, hfetq]
      unfold completeI at hp
      simp only [completeI]
      rw [hasString_congr hcur]
      have hne : cp.st.rest ≠ [] := by
        intro h0
        rw [h0] at hmlt
        simp at hmlt
      rw [if_neg (by simp [hne])] at hp
      by_cases hqc : ¬hasString cp.st = true ∧ cq.st.rest = []
      · rw [if_pos hqc]
        obtain ⟨cq2, hq2, hrel2, hres2⟩ :=
          tryAltSim cp { cq with res := { cq.res with validAsMatch := true } } cp2 halts hp
        exact Or.inl ⟨cq2, hq2, hrel2, by rw [hres2]⟩
      · rw [if_neg hqc]
        obtain ⟨cq2, hq2, hrel2, hres2⟩ := tryAltSim cp cq cp2 halts hp
        exact Or.inl ⟨cq2, hq2, hrel2, by rw [hres2]⟩

/-- Run-level simulation: if the longer run still has components left (the
relation guarantees it), completes with valid_as_complete_match, and the
shorter run returns a result, that result has valid_as_prefix set. -/
theorem runSim (prog : Program) : ∀ (f : Nat) (cp cq : Cfg) (r : MatchResult),
    SRelCfg cp cq → runLoop prog f cp = .ok r → r.validAsMatch = true →
    cp.res.validAsMatch = false →
    ∀ (fq : Nat) (r2 : MatchResult), runLoop prog fq cq = .ok r2 → r2.validAsPfx = true := by
  intro f
  induction f with
  | zero =>
    intro cp cq r hrel hrun hm hcm
    unfold runLoop at hrun
    split at hrun
    next hboth =>
      simp only [MOut.ok.injEq] at hrun
      rw [← hrun] at hm
      simp at hboth
      rw [hboth.2] at hcm
      exact absurd hcm (by simp)
    next => exact absurd hrun (by simp)
  | succ f2 ihf =>
    intro cp cq r hrel hrun hm hcm
    unfold runLoop at hrun
    split at hrun
    next hboth =>
      simp at hboth
      rw [hboth.2] at hcm
      exact absurd hcm (by simp)
    next hnboth =>
      have hne : cp.st.rest ≠ [] := by
        obtain ⟨⟨_, _, _, _, m, _, hmlt⟩, _⟩ := hrel
        intro hnil
        rw [hnil] at hmlt
        simp at hmlt
      split at hrun
      next heq => exact absurd hrun (by simp)
      next rstop heq =>
        simp only [MOut.ok.injEq] at hrun
        have hms := stepM_match_stop prog cp rstop hne heq
        rw [hrun, hm, hcm] at hms
        exact absurd hms (by simp)
      next c1 heq =>
        have hcm2 : c1.res.validAsMatch = false := by
          rw [stepM_match_cont prog cp c1 hne heq, hcm]
        rcases stepSim prog cp cq c1 ⟨hrel.1, hrel.2⟩ heq with
          ⟨cq2, hq2, hrel2, hpfxeq⟩ | ⟨cq2, hq2, hpfx⟩ | ⟨rq, hq2, hpfx⟩
        · intro fq r2 hq
          cases fq with
          | zero =>
            unfold runLoop at hq
            split at hq
            next hb =>
              simp only [MOut.ok.injEq] at hq
              simp at hb
              rw [← hq]
              exact hb.1
            next => exact absurd hq (by simp)
          | succ fq2 =>
            unfold runLoop at hq
            split at hq
            next hb =>
              simp only [MOut.ok.injEq] at hq
              simp at hb
              rw [← hq]
              exact hb.1
            next =>
              split at hq
              next heq2 =>
                rw [hq2] at heq2
                exact absurd heq2 (by simp)
              next rstop2 heq2 =>
                rw [hq2] at heq2
                exact absurd heq2 (by simp)
              next cq1 heq2 =>
                rw [hq2] at heq2
                simp only [StepRes.cont.injEq] at heq2
                rw [← heq2] at hq
                exact ihf c1 cq2 r hrel2 hrun hm hcm2 fq2 r2 hq
        · intro fq r2 hq
          cases fq with
          | zero =>
            unfold runLoop at hq
            split at hq
            next hb =>
              simp only [MOut.ok.injEq] at hq
              simp at hb
              rw [← hq]
              exact hb.1
            next => exact absurd hq (by simp)
          | succ fq2 =>
            unfold runLoop at hq
            split at hq
            next hb =>
              simp only [MOut.ok.injEq] at hq
              simp at hb
              rw [← hq]
              exact hb.1
            next =>
              split at hq
              next heq2 =>
                rw [hq2] at heq2
                exact absurd heq2 (by simp)
              next rstop2 heq2 =>
                rw [hq2] at heq2
                exact absurd heq2 (by simp)
              next cq1 heq2 =>
                rw [hq2] at heq2
                simp only [StepRes.cont.injEq] at heq2
                rw [← heq2] at hq
                exact runLoop_pfx prog fq2 cq2 r2 hpfx hq
        · intro fq r2 hq
          cases fq with
          | zero =>
            unfold runLoop at hq
            split at hq
            next hb =>
              simp only [MOut.ok.injEq] at hq
              simp at hb
              rw [← hq]
              exact hb.1
            next => exact absurd hq (by simp)
          | succ fq2 =>
            unfold runLoop at hq
            split at hq
            next hb =>
              simp only [MOut.ok.injEq] at hq
              simp at hb
              rw [← hq]
              exact hb.1
            next =>
              split at hq
              next heq2 =>
                rw [hq2] at heq2
                exact absurd heq2 (by simp)
              next rstop2 heq2 =>
                rw [hq2] at heq2
                simp only [StepRes.stop.injEq] at heq2
                simp only [MOut.ok.injEq] at hq
                rw [← hq, ← heq2]
                exact hpfx
              next cq1 heq2 =>
                rw [hq2] at heq2
                exact absurd heq2 (by simp)

/-- C5: prefix monotonicity — for every program and every path, if the
matcher completes on the path (valid_as_complete_match = true) then on any
strict component-wise prefix of that path it reports valid_as_prefix = true,
whenever it returns a result at all. Proved by a lockstep simulation: the two
runs execute identically until the shorter input is exhausted, the matcher
cannot complete while components remain, and hitting end of input on the
shorter run records prefix validity, which is monotone for the rest of the
loop. -/
theorem c5_prefix_monotonicity (prog : Program) (comps : List Component) (k : Nat)
    (hk : k < comps.length) (fp fq : Nat) (r r2 : MatchResult)
    (hp : pathMatchesF fp prog comps = .ok r) (hm : r.validAsMatch = true)
    (hq : pathMatchesF fq prog (comps.take k) = .ok r2) :
    r2.validAsPfx = true := by
  have hrel : SRelCfg ⟨initState comps prog.counters, [], ⟨false, false⟩⟩
      ⟨initState (comps.take k) prog.counters, [], ⟨false, false⟩⟩ :=
    ⟨⟨rfl, rfl, rfl, rfl, k, rfl, hk⟩, List.Forall₂.nil⟩
  exact runSim prog fp _ _ r hrel hp hm rfl fq r2 hq

/-- C5 witness: the pattern `<a:0,1>` completes on the path `a` and prefix
matches its strict prefix, the empty path. -/
theorem c5_prefix_monotonicity_witness : (⟨true, false⟩ : MatchResult).validAsPfx = true :=
  c5_prefix_monotonicity progA01 [.normal [97]] 0 (by decide) 50 50 ⟨false, true⟩
    ⟨true, false⟩ (by decide) (by decide) (by decide)
